import Mathlib

set_option maxHeartbeats 1000000

namespace Branta

/-- Python exception kinds the embedded code can raise. -/
inductive PyErr where
  | indexError
  | valueError
  | zeroDivisionError
  | keyError
  | assertionError
  | compileError
  | parseError
deriving DecidableEq

/-- A production rule: a nonterminal name (field `start` in the source) with an ordered
list of alternative bodies, each body an ordered list of symbol strings.
Modelled from the spec: class `Rule` of the external `grammar` module (not under src/),
spec section 3; `add_body` appends one alternative body. -/
structure Rule where
  start : String
  bodies : List (List String)
deriving DecidableEq

def Rule.add_body (r : Rule) (b : List String) : Rule := ⟨r.start, r.bodies ++ [b]⟩

/-- Modelled from the spec: class `Grammar` of the external `grammar` module (not under
src/), spec section 3: an insertion-ordered mapping from nonterminal name to Rule, keyed
by the rule name. -/
structure Grammar where
  rules : List Rule
deriving DecidableEq

/-- Modelled from the spec, section 4.1: addOrReplaceRule keyed by rule.start; replacing
an existing key keeps its position (Python dict update). -/
def upsert : List Rule → Rule → List Rule
  | [], r => [r]
  | a :: l, r => if a.start = r.start then r :: l else a :: upsert l r

def Grammar.add_rule (g : Grammar) (r : Rule) : Grammar := ⟨upsert g.rules r⟩

/-- Modelled from the spec: the `Grammar(entry)` constructor, spec section 3: the fresh
grammar holds the distinguished "start" rule whose single body is [entry]. -/
def Grammar.init (entry : String) : Grammar := ⟨[⟨"start", [[entry]]⟩]⟩

def Grammar.keys (g : Grammar) : List String := g.rules.map (·.start)

def Grammar.find (g : Grammar) (k : String) : Option Rule :=
  g.rules.find? (fun r => r.start == k)

/-- Python dict access grammar.rules[k]: KeyError when the key is absent. -/
def Grammar.getRule (g : Grammar) (k : String) : Except PyErr Rule :=
  match g.find k with
  | some r => .ok r
  | none => .error .keyError

/-- Python list indexing, raising IndexError when out of range. -/
def listGet (l : List α) (i : Nat) : Except PyErr α :=
  if h : i < l.length then .ok (l.get ⟨i, h⟩) else .error .indexError

/-- The stream of pseudo-random draws: each `random` primitive consumes one natural
number; an exhausted stream yields 0. -/
abbrev R := List Nat

def rnext : R → Nat × R
  | [] => (0, [])
  | n :: r => (n, r)

/-- random.choice(seq): one element of the sequence (the draw picks index r mod length);
IndexError on an empty sequence. -/
def pychoice (l : List α) (r : R) : Except PyErr (α × R) :=
  let p := rnext r
  if h : 0 < l.length then .ok (l.get ⟨p.1 % l.length, Nat.mod_lt _ h⟩, p.2)
  else .error .indexError

/-- random.choices(population, weights, k=1)[0]: one weighted draw; ValueError on an
empty population. The weight list is kept (the source computes it, and computing it can
raise) but the draw is modelled by index; the weighting itself is not modelled. -/
def pychoices1 (l : List α) (_w : List ℚ) (r : R) : Except PyErr (α × R) :=
  let p := rnext r
  if h : 0 < l.length then .ok (l.get ⟨p.1 % l.length, Nat.mod_lt _ h⟩, p.2)
  else .error .valueError

/-- Python list.remove(x): removes the first occurrence; ValueError when absent. -/
def pyremove (l : List String) (x : String) : Except PyErr (List String) :=
  if x ∈ l then .ok (l.erase x) else .error .valueError

def pysampleGo : List α → Nat → R → List α × R
  | _, 0, r => ([], r)
  | l, k+1, r =>
    let p := rnext r
    if h : 0 < l.length then
      let i : Fin l.length := ⟨p.1 % l.length, Nat.mod_lt _ h⟩
      let rest := pysampleGo (l.eraseIdx i) k p.2
      (l.get i :: rest.1, rest.2)
    else ([], p.2)

/-- random.sample(population, k): k distinct positions without replacement; ValueError
when k exceeds the population size. -/
def pysample (l : List α) (k : Nat) (r : R) : Except PyErr (List α × R) :=
  if k ≤ l.length then .ok (pysampleGo l k r) else .error .valueError

/-- Translates class Scorer (fields), src/branta/search.py lines 18-20. -/
structure Scorer where
  positives : List String
  negatives : List String

/-- Modelled from the spec: the external grammar-execution engine, spec section 6 (the
`grammar` module's parser() method and the lark library, both missing from src/):
compiling a grammar may raise a catchable failure, and the compiled parser raises on an
input it does not accept. -/
structure Engine where
  parserOf : Grammar → Except PyErr (String → Except PyErr Unit)

/-- Translates the inner function `parses`, src/branta/search.py lines 27-33. The compile
step grammar.parser() (line 28) sits outside the try block; only parser.parse(input)
(lines 29-33) is guarded by try/except. -/
def parses (E : Engine) (grammar : Grammar) (input : String) : Except PyErr Bool := do
  let p ← E.parserOf grammar
  match p input with
  | .ok _ => pure true
  | .error _ => pure false

/-- Translates sum([1 for x in l if parses(grammar, x)]), src/branta/search.py
lines 35 and 37. -/
def countMatched (E : Engine) (grammar : Grammar) (l : List String) : Except PyErr Nat :=
  l.foldlM (fun acc s => do
    let b ← parses E grammar s
    pure (acc + (if b then 1 else 0))) 0

/-- Python division: ZeroDivisionError on a zero denominator. -/
def pyDiv (a b : ℚ) : Except PyErr ℚ :=
  if b = 0 then .error .zeroDivisionError else .ok (a / b)

/-- Python max([a, b]) (lines 36 and 38): keeps the first element unless the second is
strictly greater. Written with the computable comparison (the lattice max on ℚ does not
kernel-evaluate); equal to max, next lemma. -/
def pymax (a b : ℚ) : ℚ := if a < b then b else a

lemma pymax_eq_max (a b : ℚ) : pymax a b = max a b := by
  unfold pymax
  rw [max_def]
  by_cases h1 : a < b
  · rw [if_pos h1, if_pos (le_of_lt h1)]
  · by_cases h2 : a ≤ b
    · have hab : a = b := le_antisymm h2 (not_lt.mp h1)
      rw [if_neg h1, if_pos h2, hab]
    · rw [if_neg h1, if_neg h2]

/-- Translates Scorer.score, src/branta/search.py lines 22-39 (0.5 is written 1/2). -/
def Scorer.score (self : Scorer) (E : Engine) (grammar : Grammar) : Except PyErr ℚ := do
  let num_positives_matched ← countMatched E grammar self.positives
  let q₁ ← pyDiv (num_positives_matched : ℚ) (self.positives.length : ℚ)
  let q₂ ← pyDiv (1/2) (self.positives.length : ℚ)
  let positive_score := pymax q₁ q₂
  let num_negatives_matched ← countMatched E grammar self.negatives
  let q₃ ← pyDiv (num_negatives_matched : ℚ) (self.negatives.length : ℚ)
  let q₄ ← pyDiv (1/2) (self.negatives.length : ℚ)
  let negative_score := pymax (1 - q₃) q₄
  pure (positive_score * negative_score)

/-- Whether a compiled parser accepts an input: the Boolean that the try/except in
`parses` produces once compilation has succeeded. -/
def matchB (p : String → Except PyErr Unit) (s : String) : Bool :=
  match p s with
  | .ok _ => true
  | .error _ => false

lemma parses_eq_matchB (E : Engine) (g : Grammar) (p : String → Except PyErr Unit)
    (s : String) (hc : E.parserOf g = .ok p) : parses E g s = .ok (matchB p s) := by
  unfold parses
  rw [hc]
  show Except.bind (Except.ok p) _ = _
  unfold Except.bind
  cases hps : p s <;> simp [matchB, hps, pure, Except.pure]

lemma parses_compile_error (E : Engine) (g : Grammar) (s : String) (e : PyErr)
    (hc : E.parserOf g = .error e) : parses E g s = .error e := by
  unfold parses
  rw [hc]
  rfl

lemma countMatched_go (E : Engine) (g : Grammar) (p : String → Except PyErr Unit)
    (hc : E.parserOf g = .ok p) :
    ∀ (l : List String) (acc : Nat),
      l.foldlM (fun acc s => do
        let b ← parses E g s
        pure (acc + (if b then 1 else 0))) acc = .ok (acc + l.countP (matchB p)) := by
  intro l
  induction l with
  | nil => intro acc; simp [List.foldlM, pure, Except.pure]
  | cons a l ih =>
    intro acc
    rw [List.foldlM_cons]
    rw [parses_eq_matchB E g p a hc]
    show Except.bind (Except.bind (Except.ok (matchB p a)) _) _ = _
    unfold Except.bind
    show List.foldlM _ (acc + if matchB p a then 1 else 0) l = _
    rw [ih]
    rw [List.countP_cons]
    by_cases hm : matchB p a <;> simp [hm]
    omega

lemma countMatched_ok (E : Engine) (g : Grammar) (p : String → Except PyErr Unit)
    (l : List String) (hc : E.parserOf g = .ok p) :
    countMatched E g l = .ok (l.countP (matchB p)) := by
  unfold countMatched
  rw [countMatched_go E g p hc l 0]
  simp

/-- A concrete parser that rejects every input (its parse raises on every string). -/
def noParse : String → Except PyErr Unit := fun _ => .error .parseError

/-- A concrete engine whose compilation always succeeds and whose parser rejects
every input. -/
def noParseEngine : Engine := ⟨fun _ => .ok noParse⟩

/-- A concrete engine whose grammar compilation always raises (spec section 6 allows the
external engine to fail catchably on degenerate grammars). -/
def failEngine : Engine := ⟨fun _ => .error .compileError⟩

/-- Claim C2: with non-empty example sets and a grammar whose compilation succeeds,
Scorer.score returns exactly max(P/|positives|, 0.5/|positives|) *
max(1 - N/|negatives|, 0.5/|negatives|) where P and N count the examples the grammar
parses; the result is strictly positive and at most 1. -/
theorem claim2_scorer_score_formula (E : Engine) (sc : Scorer) (g : Grammar)
    (p : String → Except PyErr Unit)
    (hp : sc.positives ≠ []) (hn : sc.negatives ≠ []) (hc : E.parserOf g = .ok p) :
    sc.score E g = .ok
      (max ((sc.positives.countP (matchB p) : ℚ) / (sc.positives.length : ℚ))
          (1/2 / (sc.positives.length : ℚ)) *
        max (1 - (sc.negatives.countP (matchB p) : ℚ) / (sc.negatives.length : ℚ))
          (1/2 / (sc.negatives.length : ℚ)))
    ∧ ∀ q : ℚ, sc.score E g = .ok q → 0 < q ∧ q ≤ 1 := by
  have hp0 : sc.positives.length ≠ 0 := by simpa [List.length_eq_zero] using hp
  have hn0 : sc.negatives.length ≠ 0 := by simpa [List.length_eq_zero] using hn
  have hpq : (0 : ℚ) < (sc.positives.length : ℚ) := by
    exact_mod_cast Nat.pos_of_ne_zero hp0
  have hnq : (0 : ℚ) < (sc.negatives.length : ℚ) := by
    exact_mod_cast Nat.pos_of_ne_zero hn0
  have hscore : sc.score E g = .ok
      (max ((sc.positives.countP (matchB p) : ℚ) / (sc.positives.length : ℚ))
          (1/2 / (sc.positives.length : ℚ)) *
        max (1 - (sc.negatives.countP (matchB p) : ℚ) / (sc.negatives.length : ℚ))
          (1/2 / (sc.negatives.length : ℚ))) := by
    unfold Scorer.score
    rw [countMatched_ok E g p sc.positives hc, countMatched_ok E g p sc.negatives hc]
    simp [pyDiv, hpq.ne.symm, hnq.ne.symm, bind, Except.bind, pure, Except.pure,
      pymax_eq_max]
  refine ⟨hscore, ?_⟩
  intro q hq
  rw [hscore] at hq
  have hq' := Except.ok.inj hq
  subst hq'
  have h1p : (1 : ℚ) ≤ (sc.positives.length : ℚ) := by
    exact_mod_cast Nat.one_le_iff_ne_zero.mpr hp0
  have h1n : (1 : ℚ) ≤ (sc.negatives.length : ℚ) := by
    exact_mod_cast Nat.one_le_iff_ne_zero.mpr hn0
  have hA0 : (0 : ℚ) < max ((sc.positives.countP (matchB p) : ℚ) / (sc.positives.length : ℚ))
      (1/2 / (sc.positives.length : ℚ)) :=
    lt_of_lt_of_le (by positivity) (le_max_right _ _)
  have hB0 : (0 : ℚ) < max (1 - (sc.negatives.countP (matchB p) : ℚ) / (sc.negatives.length : ℚ))
      (1/2 / (sc.negatives.length : ℚ)) :=
    lt_of_lt_of_le (by positivity) (le_max_right _ _)
  have hA1 : max ((sc.positives.countP (matchB p) : ℚ) / (sc.positives.length : ℚ))
      (1/2 / (sc.positives.length : ℚ)) ≤ 1 := by
    apply max_le
    · rw [div_le_one hpq]
      exact_mod_cast List.countP_le_length (matchB p)
    · rw [div_le_one hpq]
      linarith
  have hB1 : max (1 - (sc.negatives.countP (matchB p) : ℚ) / (sc.negatives.length : ℚ))
      (1/2 / (sc.negatives.length : ℚ)) ≤ 1 := by
    apply max_le
    · have : (0 : ℚ) ≤ (sc.negatives.countP (matchB p) : ℚ) / (sc.negatives.length : ℚ) := by
        positivity
      linarith
    · rw [div_le_one hnq]
      linarith
  constructor
  · exact mul_pos hA0 hB0
  · nlinarith

/-- Claim C2 witness: the formula clause evaluated at a concrete scorer, engine and
grammar. -/
theorem claim2_witnessed :
    (Scorer.mk ["a"] ["b"]).score noParseEngine (Grammar.mk []) = .ok
      (max (((["a"] : List String).countP (matchB noParse) : ℚ) / ((["a"] : List String).length : ℚ))
          (1/2 / ((["a"] : List String).length : ℚ)) *
        max (1 - ((["b"] : List String).countP (matchB noParse) : ℚ) / ((["b"] : List String).length : ℚ))
          (1/2 / ((["b"] : List String).length : ℚ))) :=
  (claim2_scorer_score_formula noParseEngine (Scorer.mk ["a"] ["b"]) (Grammar.mk []) noParse
    (by simp) (by simp) rfl).1

/-- Claim C3 counterexample: a failure raised while compiling the grammar into a parser
(grammar.parser(), line 28, outside the try block) propagates out of Scorer.score,
refuting the claim at a concrete grammar and example set. -/
theorem claim3_counterexample :
    (Scorer.mk ["a"] ["b"]).score failEngine (Grammar.mk []) = .error .compileError := rfl

/-- Claim C3 (amended): a failure raised while parsing an example is caught inside the
scorer and treated as "does not match" for that example only, but a failure raised while
compiling the grammar into a parser propagates out of parses (and hence out of
Scorer.score). -/
theorem claim3_parse_failures_caught :
    (∀ (E : Engine) (g : Grammar) (p : String → Except PyErr Unit) (s : String),
      E.parserOf g = .ok p → parses E g s = .ok (matchB p s)) ∧
    (∀ (E : Engine) (g : Grammar) (s : String) (e : PyErr),
      E.parserOf g = .error e → parses E g s = .error e) :=
  ⟨fun E g p s hc => parses_eq_matchB E g p s hc,
   fun E g s e hc => parses_compile_error E g s e hc⟩

/-- Claim C3 witness: both clauses of the amended claim applied at concrete engines. -/
theorem claim3_witnessed :
    parses noParseEngine (Grammar.mk []) "x" = .ok (matchB noParse "x") ∧
    parses failEngine (Grammar.mk []) "x" = .error .compileError :=
  ⟨claim3_parse_failures_caught.1 noParseEngine (Grammar.mk []) noParse "x" rfl,
   claim3_parse_failures_caught.2 failEngine (Grammar.mk []) "x" .compileError rfl⟩

/-- Claim C10: with a grammar whose compilation succeeds, Scorer.score raises
ZeroDivisionError whenever the positives list or the negatives list is empty: both
divisions by the example-list lengths (lines 36 and 38) are unguarded. -/
theorem claim10_score_empty_raises (E : Engine) (sc : Scorer) (g : Grammar)
    (p : String → Except PyErr Unit) (hc : E.parserOf g = .ok p)
    (h : sc.positives = [] ∨ sc.negatives = []) :
    sc.score E g = .error .zeroDivisionError := by
  by_cases hp : sc.positives = []
  · unfold Scorer.score
    rw [countMatched_ok E g p sc.positives hc]
    simp [hp, pyDiv, bind, Except.bind]
  · have hn : sc.negatives = [] := h.resolve_left hp
    have hp0 : sc.positives.length ≠ 0 := by simpa [List.length_eq_zero] using hp
    have hpq : ((sc.positives.length : ℚ)) ≠ 0 := by
      exact_mod_cast hp0
    unfold Scorer.score
    rw [countMatched_ok E g p sc.positives hc, countMatched_ok E g p sc.negatives hc]
    simp [hn, pyDiv, hpq, bind, Except.bind, pure, Except.pure]

/-- Claim C10 witness: scoring with an empty positives list at a concrete engine and
grammar raises ZeroDivisionError. -/
theorem claim10_witnessed :
    (Scorer.mk [] ["b"]).score noParseEngine (Grammar.mk []) = .error .zeroDivisionError :=
  claim10_score_empty_raises noParseEngine (Scorer.mk [] ["b"]) (Grammar.mk []) noParse rfl
    (Or.inl rfl)

/-- The decimal digit characters used by Python str(int). -/
def digitChar10 (d : Nat) : Char := Char.ofNat (48 + d)

/-- Little-endian decimal digits computed with structural fuel, so that the kernel can
evaluate names in concrete runs; proved equal to Nat.digits 10 below. -/
def natDigitsGo : Nat → Nat → List Nat
  | 0, _ => []
  | _+1, 0 => []
  | f+1, n+1 => (n+1) % 10 :: natDigitsGo f ((n+1) / 10)

def natDigits (n : Nat) : List Nat := natDigitsGo n n

lemma natDigitsGo_eq : ∀ (f n : Nat), n ≤ f → natDigitsGo f n = Nat.digits 10 n := by
  intro f
  induction f with
  | zero =>
    intro n hn
    have : n = 0 := Nat.le_zero.mp hn
    subst this
    simp [natDigitsGo]
  | succ f ih =>
    intro n hn
    cases n with
    | zero => simp [natDigitsGo]
    | succ m =>
      show (m + 1) % 10 :: natDigitsGo f ((m + 1) / 10) = _
      have hdiv : (m + 1) / 10 ≤ f := by
        have := Nat.div_lt_self (Nat.succ_pos m) (by norm_num : 1 < 10)
        omega
      rw [ih ((m + 1) / 10) hdiv]
      rw [Nat.digits_def' (by norm_num : 1 < 10) (Nat.succ_pos m)]

lemma natDigits_eq (n : Nat) : natDigits n = Nat.digits 10 n := natDigitsGo_eq n n le_rfl

/-- Decimal rendering of a natural number (Python str(n), as in the f-string f't{idx}'). -/
def natStr (n : Nat) : String :=
  if n = 0 then "0" else ⟨((natDigits n).map digitChar10).reverse⟩

/-- The nonterminal name f't{k}' (src/branta/search.py lines 51, 56, 59). -/
def ntName (k : Nat) : String := "t" ++ natStr k

lemma digitChar10_inj :
    ∀ d₁, d₁ < 10 → ∀ d₂, d₂ < 10 → digitChar10 d₁ = digitChar10 d₂ → d₁ = d₂ := by decide

lemma map_digitChar10_inj : ∀ l₁ l₂ : List Nat, (∀ d ∈ l₁, d < 10) → (∀ d ∈ l₂, d < 10) →
    l₁.map digitChar10 = l₂.map digitChar10 → l₁ = l₂ := by
  intro l₁
  induction l₁ with
  | nil =>
    intro l₂ _ _ h
    cases l₂ with
    | nil => rfl
    | cons b l₂ => simp at h
  | cons a l ih =>
    intro l₂ h₁ h₂ h
    cases l₂ with
    | nil => simp at h
    | cons b l₂ =>
      simp only [List.map_cons, List.cons.injEq] at h
      have hab := digitChar10_inj a (h₁ a (List.mem_cons_self a l)) b
        (h₂ b (List.mem_cons_self b l₂)) h.1
      have htl := ih l₂ (fun d hd => h₁ d (List.mem_cons_of_mem a hd))
        (fun d hd => h₂ d (List.mem_cons_of_mem b hd)) h.2
      rw [hab, htl]

lemma natStr_ne_zeroStr {n : Nat} (hn : n ≠ 0) : natStr n ≠ "0" := by
  intro h
  unfold natStr at h
  rw [if_neg hn, natDigits_eq] at h
  have hd : ((Nat.digits 10 n).map digitChar10).reverse = ['0'] := congrArg String.data h
  have h2 : (Nat.digits 10 n).map digitChar10 = ['0'] := by
    have := congrArg List.reverse hd
    simpa using this
  have h3 : Nat.digits 10 n = [0] := by
    apply map_digitChar10_inj _ [0]
    · intro d hd2; exact Nat.digits_lt_base (by norm_num) hd2
    · intro d hd2; simp at hd2; omega
    · rw [h2]; decide
  have h4 := congrArg (Nat.ofDigits 10) h3
  rw [Nat.ofDigits_digits] at h4
  simp [Nat.ofDigits] at h4
  exact hn (by exact_mod_cast h4)

lemma natStr_injective : Function.Injective natStr := by
  intro m n h
  by_cases hm : m = 0 <;> by_cases hn : n = 0
  · rw [hm, hn]
  · exfalso
    rw [hm] at h
    exact natStr_ne_zeroStr hn (h.symm.trans (by rfl))
  · exfalso
    rw [hn] at h
    exact natStr_ne_zeroStr hm (h.trans (by rfl))
  · unfold natStr at h
    rw [if_neg hm, if_neg hn, natDigits_eq, natDigits_eq] at h
    have hd : ((Nat.digits 10 m).map digitChar10).reverse =
        ((Nat.digits 10 n).map digitChar10).reverse := congrArg String.data h
    have h2 : (Nat.digits 10 m).map digitChar10 = (Nat.digits 10 n).map digitChar10 := by
      have := congrArg List.reverse hd
      simpa using this
    have h3 := map_digitChar10_inj _ _
      (fun d hd2 => Nat.digits_lt_base (by norm_num) hd2)
      (fun d hd2 => Nat.digits_lt_base (by norm_num) hd2) h2
    exact Nat.digits.injective 10 h3

lemma ntName_data (k : Nat) : (ntName k).data = 't' :: (natStr k).data := rfl

lemma ntName_injective : Function.Injective ntName := by
  intro a b h
  apply natStr_injective
  apply String.ext
  have hd := congrArg String.data h
  rw [ntName_data, ntName_data] at hd
  simpa using hd

lemma ntName_ne_start (k : Nat) : ntName k ≠ "start" := by
  intro h
  have hd := congrArg String.data h
  rw [ntName_data] at hd
  have h2 : ("start" : String).data = ['s', 't', 'a', 'r', 't'] := rfl
  rw [h2] at hd
  simp at hd

/-- The quoting convention for terminals: '"' + c + '"' (lines 52 and 63). -/
def quoteChar (c : Char) : String := ⟨['\"', c, '\"']⟩

lemma quoteChar_injective : Function.Injective quoteChar := by
  intro a b h
  have hd : (['\"', a, '\"'] : List Char) = ['\"', b, '\"'] := congrArg String.data h
  simpa using hd

/-- The set of quoted characters occurring in the guides (line 52). The Python set is
modelled as dedup of the occurrence list; the claims do not depend on the set's
(unspecified) iteration order, only on its members being enumerated once each. -/
def allChars (guides : List String) : List String :=
  ((guides.flatMap String.toList).map quoteChar).dedup

/-- The char_map dictionary (lines 53-57, 64): the leaf nonterminal name assigned to a
quoted character, recovered through its position in the enumeration of allChars. -/
def charMap (guides : List String) (qc : String) : String :=
  ntName ((allChars guides).indexOf qc + 1)

/-- The grammar holding the start rule and one leaf rule per enumerated quoted character
(src/branta/search.py lines 51-57). -/
def initLeaves (guides : List String) : Grammar :=
  ((allChars guides).enum).foldl
    (fun g ic => g.add_rule ⟨ntName (ic.1 + 1), [[ic.2]]⟩) (Grammar.init (ntName 0))

/-- The entry rule t0 with one body per guide, each body the leaf nonterminals of the
guide's characters in order (src/branta/search.py lines 59-65). -/
def initRule (guides : List String) : Rule :=
  ⟨ntName 0, guides.map (fun guide => guide.toList.map (fun c => charMap guides (quoteChar c)))⟩

/-- Translates init_grammar, src/branta/search.py lines 47-69. -/
def init_grammar (guides : List String) : Grammar :=
  (initLeaves guides).add_rule (initRule guides)

lemma upsert_not_mem (l : List Rule) (r : Rule) (h : r.start ∉ l.map (·.start)) :
    upsert l r = l ++ [r] := by
  induction l with
  | nil => rfl
  | cons a l ih =>
    simp only [List.map_cons, List.mem_cons] at h
    push_neg at h
    unfold upsert
    rw [if_neg (fun he => h.1 he.symm)]
    rw [ih h.2]
    rfl

lemma foldl_leaves (chars : List String) : ∀ (j : Nat) (acc : List Rule),
    acc.map (·.start) = "start" :: ((List.range j).map (fun i => ntName (i + 1))) →
    ((List.enumFrom j chars).foldl
        (fun g ic => Grammar.add_rule g ⟨ntName (ic.1 + 1), [[ic.2]]⟩) ⟨acc⟩).rules
      = acc ++ (List.enumFrom j chars).map (fun ic => (⟨ntName (ic.1 + 1), [[ic.2]]⟩ : Rule)) := by
  induction chars with
  | nil => intro j acc _; simp [List.enumFrom]
  | cons c cs ih =>
    intro j acc hacc
    show ((List.enumFrom (j+1) cs).foldl _ (Grammar.add_rule ⟨acc⟩ ⟨ntName (j + 1), [[c]]⟩)).rules = _
    have hfresh : (ntName (j + 1)) ∉ acc.map (·.start) := by
      rw [hacc]
      intro hmem
      rcases List.mem_cons.mp hmem with h1 | h1
      · exact ntName_ne_start (j + 1) h1
      · obtain ⟨i, hi, hie⟩ := List.mem_map.mp h1
        have := ntName_injective hie
        have := List.mem_range.mp hi
        omega
    have hup : Grammar.add_rule ⟨acc⟩ ⟨ntName (j + 1), [[c]]⟩ =
        ⟨acc ++ [⟨ntName (j + 1), [[c]]⟩]⟩ := by
      unfold Grammar.add_rule
      rw [upsert_not_mem acc _ hfresh]
    rw [hup]
    rw [ih (j + 1) (acc ++ [(⟨ntName (j + 1), [[c]]⟩ : Rule)]) ?keys]
    case keys =>
      rw [List.map_append, hacc]
      simp [List.range_succ]
    simp [List.enumFrom]

lemma initLeaves_rules (guides : List String) :
    (initLeaves guides).rules =
      (⟨"start", [[ntName 0]]⟩ : Rule) ::
        (allChars guides).enum.map (fun ic => (⟨ntName (ic.1 + 1), [[ic.2]]⟩ : Rule)) := by
  show ((List.enumFrom 0 (allChars guides)).foldl
      (fun g ic => Grammar.add_rule g ⟨ntName (ic.1 + 1), [[ic.2]]⟩)
      (⟨[⟨"start", [[ntName 0]]⟩]⟩ : Grammar)).rules = _
  rw [foldl_leaves (allChars guides) 0 [⟨"start", [[ntName 0]]⟩] (by simp)]
  rfl

lemma init_grammar_rules (guides : List String) :
    (init_grammar guides).rules =
      (⟨"start", [[ntName 0]]⟩ : Rule) ::
      ((allChars guides).enum.map (fun ic => (⟨ntName (ic.1 + 1), [[ic.2]]⟩ : Rule))) ++
      [initRule guides] := by
  have hfresh : (initRule guides).start ∉
      ((⟨"start", [[ntName 0]]⟩ : Rule) ::
        (allChars guides).enum.map (fun ic => (⟨ntName (ic.1 + 1), [[ic.2]]⟩ : Rule))).map
        (·.start) := by
    intro hmem
    simp only [List.map_cons, List.map_map, List.mem_cons] at hmem
    rcases hmem with h1 | h1
    · exact ntName_ne_start 0 h1
    · obtain ⟨ic, _, hie⟩ := List.mem_map.mp h1
      have := ntName_injective hie
      omega
  show upsert (initLeaves guides).rules (initRule guides) = _
  rw [initLeaves_rules guides]
  rw [upsert_not_mem _ _ hfresh]

lemma find?_key_unique (l : List Rule) (k : String) (r : Rule)
    (hnd : (l.map (·.start)).Nodup) (hm : r ∈ l) (hk : r.start = k) :
    l.find? (fun x => x.start == k) = some r := by
  induction l with
  | nil => cases hm
  | cons a l ih =>
    simp only [List.map_cons, List.nodup_cons] at hnd
    rcases List.mem_cons.mp hm with h1 | h1
    · subst h1
      rw [List.find?_cons_of_pos]
      simp [hk]
    · rw [List.find?_cons_of_neg]
      · exact ih hnd.2 h1
      · simp only [beq_iff_eq]
        intro he
        apply hnd.1
        rw [he, ← hk]
        exact List.mem_map.mpr ⟨r, h1, rfl⟩

lemma init_grammar_keys (guides : List String) :
    (init_grammar guides).keys =
      "start" :: ((List.range (allChars guides).length).map (fun i => ntName (i + 1))) ++
        [ntName 0] := by
  unfold Grammar.keys
  rw [init_grammar_rules]
  have h1 : (allChars guides).enum.map
      ((fun x => x.start) ∘ (fun ic => (⟨ntName (ic.1 + 1), [[ic.2]]⟩ : Rule))) =
      (List.range (allChars guides).length).map (fun i => ntName (i + 1)) := by
    rw [← List.enum_map_fst (allChars guides), List.map_map]
    rfl
  simp only [List.map_cons, List.map_append, List.map_map, List.map_cons, List.map_nil]
  rw [h1]
  rfl

lemma init_grammar_keys_nodup (guides : List String) : (init_grammar guides).keys.Nodup := by
  rw [init_grammar_keys]
  apply List.nodup_cons.mpr
  constructor
  · intro hmem
    rcases List.mem_append.mp hmem with h | h
    · obtain ⟨i, _, hie⟩ := List.mem_map.mp h
      exact ntName_ne_start (i + 1) hie
    · simp only [List.mem_singleton] at h
      exact ntName_ne_start 0 h.symm
  · apply List.Nodup.append
    · apply List.Nodup.map
      · intro a b hab
        have := ntName_injective hab
        omega
      · exact List.nodup_range _
    · simp
    · intro x hx hx'
      simp only [List.mem_singleton] at hx'
      subst hx'
      obtain ⟨i, _, hie⟩ := List.mem_map.mp hx
      have := ntName_injective hie
      omega

/-- Claim C9: for every list of guide strings, init_grammar produces a grammar containing
exactly one leaf rule per distinct quoted terminal character appearing in any guide (each
leaf rule with the single body [quoted character]), plus the entry rule t0 with one body
per guide, each body the sequence of the corresponding leaf nonterminals in the guide's
character order (plus the constructor's synthetic "start" rule): the rule keys are
distinct, the rule count is exactly (number of distinct characters) + 2, every guide
character has its unique leaf rule, distinct characters get distinct leaf rules, and the
t0 rule holds the per-guide bodies. -/
theorem claim9_init_grammar (guides : List String) :
    (init_grammar guides).keys.Nodup ∧
    (init_grammar guides).rules.length = (allChars guides).length + 2 ∧
    (∀ c, c ∈ guides.flatMap String.toList →
      (init_grammar guides).find (charMap guides (quoteChar c)) =
        some ⟨charMap guides (quoteChar c), [[quoteChar c]]⟩) ∧
    (∀ c₁ c₂, c₁ ∈ guides.flatMap String.toList → c₂ ∈ guides.flatMap String.toList →
      charMap guides (quoteChar c₁) = charMap guides (quoteChar c₂) → c₁ = c₂) ∧
    (init_grammar guides).find (ntName 0) =
      some ⟨ntName 0,
        guides.map (fun guide => guide.toList.map (fun c => charMap guides (quoteChar c)))⟩ := by
  have hnd : ((init_grammar guides).rules.map (·.start)).Nodup := init_grammar_keys_nodup guides
  refine ⟨init_grammar_keys_nodup guides, ?_, ?_, ?_, ?_⟩
  · rw [init_grammar_rules]
    simp
  · intro c hc
    have hqc : quoteChar c ∈ allChars guides :=
      List.mem_dedup.mpr (List.mem_map.mpr ⟨c, hc, rfl⟩)
    have hidx : (allChars guides).indexOf (quoteChar c) < (allChars guides).length :=
      List.indexOf_lt_length.mpr hqc
    have hmem : (⟨charMap guides (quoteChar c), [[quoteChar c]]⟩ : Rule) ∈
        (init_grammar guides).rules := by
      rw [init_grammar_rules]
      apply List.mem_cons_of_mem
      apply List.mem_append_left
      apply List.mem_map.mpr
      refine ⟨((allChars guides).indexOf (quoteChar c), quoteChar c), ?_, rfl⟩
      apply List.mk_mem_enum_iff_get?.mpr
      exact List.indexOf_get? hqc
    exact find?_key_unique _ _ _ hnd hmem rfl
  · intro c₁ c₂ h1 h2 he
    have hq1 : quoteChar c₁ ∈ allChars guides :=
      List.mem_dedup.mpr (List.mem_map.mpr ⟨c₁, h1, rfl⟩)
    have hq2 : quoteChar c₂ ∈ allChars guides :=
      List.mem_dedup.mpr (List.mem_map.mpr ⟨c₂, h2, rfl⟩)
    have hidxeq : (allChars guides).indexOf (quoteChar c₁) =
        (allChars guides).indexOf (quoteChar c₂) := by
      have := ntName_injective he
      omega
    have hsome : some (quoteChar c₁) = some (quoteChar c₂) := by
      rw [← List.indexOf_get? hq1, ← List.indexOf_get? hq2, hidxeq]
    exact quoteChar_injective (Option.some.inj hsome)
  · have hmem : initRule guides ∈ (init_grammar guides).rules := by
      rw [init_grammar_rules]
      apply List.mem_cons_of_mem
      apply List.mem_append_right
      simp
    exact find?_key_unique _ _ _ hnd hmem rfl

@[simp] lemma ok_bind (a : α) (f : α → Except PyErr β) : Except.ok a >>= f = f a := rfl

@[simp] lemma error_bind (e : PyErr) (f : α → Except PyErr β) :
    (Except.error e : Except PyErr α) >>= f = Except.error e := rfl

/-- Modelled from the spec: new_nonterminal from branta.util (not under src/): mints a
fresh nonterminal name not colliding with any name in the given collection; modelled as
the first name of the form t<k>, k ≤ |names|, absent from the collection (the pigeonhole
principle guarantees one exists). -/
def new_nonterminal (names : List String) : String :=
  match (List.range (names.length + 1)).find? (fun k => !(names.contains (ntName k))) with
  | some k => ntName k
  | none => ""

lemma new_nonterminal_exists (names : List String) :
    ∃ k, (List.range (names.length + 1)).find?
      (fun k => !(names.contains (ntName k))) = some k := by
  rcases hf : (List.range (names.length + 1)).find?
      (fun k => !(names.contains (ntName k))) with _ | k
  · exfalso
    have hall : ∀ k ∈ List.range (names.length + 1), ntName k ∈ names := by
      intro k hk
      have := List.find?_eq_none.mp hf k hk
      simpa using this
    have hsub : ((List.range (names.length + 1)).map ntName).toFinset ⊆ names.toFinset := by
      intro x hx
      rw [List.mem_toFinset] at hx ⊢
      obtain ⟨k, hk, hke⟩ := List.mem_map.mp hx
      rw [← hke]
      exact hall k hk
    have hnd : ((List.range (names.length + 1)).map ntName).Nodup :=
      List.Nodup.map ntName_injective (List.nodup_range _)
    have hcard1 : ((List.range (names.length + 1)).map ntName).toFinset.card =
        names.length + 1 := by
      rw [List.toFinset_card_of_nodup hnd]
      simp
    have hcard2 : names.toFinset.card ≤ names.length := names.toFinset_card_le
    have := Finset.card_le_card hsub
    omega
  · exact ⟨k, rfl⟩

lemma new_nonterminal_fresh (names : List String) : new_nonterminal names ∉ names := by
  obtain ⟨k, hk⟩ := new_nonterminal_exists names
  unfold new_nonterminal
  rw [hk]
  have := List.find?_some hk
  simpa using this

lemma new_nonterminal_ne_start (names : List String) : new_nonterminal names ≠ "start" := by
  obtain ⟨k, hk⟩ := new_nonterminal_exists names
  unfold new_nonterminal
  rw [hk]
  exact ntName_ne_start k

/-- Modelled from the spec: strict_subsequences from branta.util (not under src/), spec
section 4.4: all order-preserving (not necessarily contiguous) subsequences of a body
that are non-empty and differ from the full body. -/
def strict_subsequences (body : List String) : List (List String) :=
  body.sublists.filter (fun s => !s.isEmpty && s != body)

/-- Greedy leftmost embedding used by replace_all: walks the body; elements matching the
next pending symbol of seq are consumed (the first consumed one becomes name, later ones
are dropped); all other elements are kept; none when seq does not embed in the body. -/
def replaceGo (name : String) : Bool → List String → List String → Option (List String)
  | _, body, [] => some body
  | _, [], _ :: _ => none
  | emitted, b :: body, s :: seq =>
    if b = s then
      if emitted then replaceGo name true body seq
      else (replaceGo name true body seq).map (fun l => name :: l)
    else (replaceGo name emitted body (s :: seq)).map (fun l => b :: l)

/-- Modelled from the spec: replace_all from branta.util (not under src/), spec section
4.4: replace the first occurrence of seq in the body — matched as an order-preserving,
not necessarily contiguous subsequence — with the single nonterminal name; a body not
containing seq is returned unchanged. -/
def replace_all (body : List String) (seq : List String) (name : String) : List String :=
  (replaceGo name false body seq).getD body

/-- The pool of candidate subsequences gathered over every rule body (lines 82-85); the
Python set of tuples is modelled as a dedup'd list (the claims do not depend on the
set's unspecified iteration order). -/
def bubbleSequences (grammar : Grammar) : List (List String) :=
  (grammar.rules.flatMap (fun rule => rule.bodies.flatMap strict_subsequences)).dedup

/-- Translates mutate_bubble, src/branta/search.py lines 75-109. -/
def mutate_bubble (grammar : Grammar) (r : R) : Except PyErr (Grammar × R) := do
  let startRule ← grammar.getRule "start"
  let b0 ← listGet startRule.bodies 0
  let entry ← listGet b0 0
  let mutant := Grammar.init entry
  let sequences := bubbleSequences grammar
  if sequences.length = 0 then
    pure (grammar.rules.foldl
      (fun m rule => m.add_rule ⟨rule.start, rule.bodies⟩) mutant, r)
  else do
    let pc ← pychoice sequences r
    let replace_seq := pc.1
    let replace_name := new_nonterminal grammar.keys
    let mutant := grammar.rules.foldl
      (fun m rule => m.add_rule
        ⟨rule.start, rule.bodies.map (fun body => replace_all body replace_seq replace_name)⟩)
      mutant
    pure (mutant.add_rule ⟨replace_name, [replace_seq]⟩, pc.2)

lemma foldl_add_rule_fresh (f : Rule → Rule) (hf : ∀ rule, (f rule).start = rule.start) :
    ∀ (rules acc : List Rule),
    (∀ rule ∈ rules, rule.start ∉ acc.map (·.start)) →
    (rules.map (·.start)).Nodup →
    (rules.foldl (fun m rule => m.add_rule (f rule)) (⟨acc⟩ : Grammar)).rules
      = acc ++ rules.map f := by
  intro rules
  induction rules with
  | nil => intro acc _ _; simp
  | cons a rs ih =>
    intro acc hfresh hnd
    simp only [List.map_cons, List.nodup_cons] at hnd
    show ((rs.foldl (fun m rule => m.add_rule (f rule)) (Grammar.add_rule ⟨acc⟩ (f a)))).rules = _
    have h1 : Grammar.add_rule ⟨acc⟩ (f a) = ⟨acc ++ [f a]⟩ := by
      unfold Grammar.add_rule
      rw [upsert_not_mem]
      rw [hf a]
      exact hfresh a (List.mem_cons_self a rs)
    rw [h1]
    rw [ih (acc ++ [f a]) ?fr hnd.2]
    · simp
    case fr =>
      intro rule hrule
      rw [List.map_append]
      intro hmem
      rcases List.mem_append.mp hmem with h | h
      · exact hfresh rule (List.mem_cons_of_mem a hrule) h
      · simp only [List.map_cons, List.map_nil, List.mem_singleton, hf a] at h
        exact hnd.1 (h ▸ List.mem_map.mpr ⟨rule, hrule, rfl⟩)

lemma foldl_add_rule_start (f : Rule → Rule) (hf : ∀ rule, (f rule).start = rule.start)
    (r₀ : Rule) (rest : List Rule) (init : Rule)
    (hinit : init.start = "start") (hr₀ : r₀.start = "start")
    (hnd : ((r₀ :: rest).map (·.start)).Nodup) :
    ((r₀ :: rest).foldl (fun m rule => m.add_rule (f rule)) (⟨[init]⟩ : Grammar)).rules
      = (r₀ :: rest).map f := by
  simp only [List.map_cons, List.nodup_cons] at hnd
  show ((rest.foldl (fun m rule => m.add_rule (f rule)) (Grammar.add_rule ⟨[init]⟩ (f r₀)))).rules = _
  have h1 : Grammar.add_rule ⟨[init]⟩ (f r₀) = ⟨[f r₀]⟩ := by
    unfold Grammar.add_rule upsert
    rw [if_pos]
    rw [hinit, hf r₀, hr₀]
  rw [h1]
  rw [foldl_add_rule_fresh f hf rest [f r₀] ?fr hnd.2]
  · rfl
  case fr =>
    intro rule hrule
    simp only [List.map_cons, List.map_nil, List.mem_singleton, hf r₀]
    intro hmem
    exact hnd.1 (hmem ▸ List.mem_map.mpr ⟨rule, hrule, rfl⟩)

lemma map_mk_eta (l : List Rule) : l.map (fun rule => (⟨rule.start, rule.bodies⟩ : Rule)) = l := by
  induction l with
  | nil => rfl
  | cons a l ih => simp [ih]

lemma Grammar.eq_of_rules (g₁ g₂ : Grammar) (h : g₁.rules = g₂.rules) : g₁ = g₂ := by
  cases g₁; cases g₂; cases h; rfl

/-- Claim C8: for every well-formed grammar, mutate_bubble either (no candidate strict
subsequence) returns a structural copy unchanged, or picks one candidate subsequence,
mints a fresh nonterminal not colliding with any existing rule name, maps replace_all
(replace the first order-preserving occurrence) over every rule body, and appends a new
rule for the fresh nonterminal with exactly one body equal to the extracted
subsequence. -/
theorem claim8_mutate_bubble (grammar : Grammar) (r : R) (r₀ : Rule) (rest : List Rule)
    (e : String) (b1 : List String) (bs : List (List String))
    (hrules : grammar.rules = r₀ :: rest)
    (hr₀ : r₀.start = "start")
    (hb : r₀.bodies = (e :: b1) :: bs)
    (hnd : grammar.keys.Nodup) :
    (bubbleSequences grammar = [] → mutate_bubble grammar r = .ok (grammar, r)) ∧
    (bubbleSequences grammar ≠ [] →
      ∃ seq r₂, seq ∈ bubbleSequences grammar ∧
        new_nonterminal grammar.keys ∉ grammar.keys ∧
        mutate_bubble grammar r = .ok
          (⟨grammar.rules.map (fun rule =>
              (⟨rule.start, rule.bodies.map (fun body =>
                replace_all body seq (new_nonterminal grammar.keys))⟩ : Rule)) ++
            [⟨new_nonterminal grammar.keys, [seq]⟩]⟩, r₂)) := by
  have hget : grammar.getRule "start" = .ok r₀ := by
    unfold Grammar.getRule Grammar.find
    rw [hrules, List.find?_cons_of_pos]
    simp [hr₀]
  have hb0 : listGet r₀.bodies 0 = .ok (e :: b1) := by
    rw [hb]
    unfold listGet
    rw [dif_pos (by simp)]
    rfl
  have hentry : listGet (e :: b1) 0 = .ok e := by
    unfold listGet
    rw [dif_pos (by simp)]
    rfl
  have hndkeys : ((r₀ :: rest).map (·.start)).Nodup := by
    rw [← hrules]; exact hnd
  constructor
  · intro h0
    have hfold : (grammar.rules.foldl
        (fun m rule => m.add_rule ⟨rule.start, rule.bodies⟩) (Grammar.init e)).rules
        = (r₀ :: rest).map (fun rule => (⟨rule.start, rule.bodies⟩ : Rule)) := by
      rw [hrules]
      exact foldl_add_rule_start (fun rule => ⟨rule.start, rule.bodies⟩) (fun _ => rfl)
        r₀ rest ⟨"start", [[e]]⟩ rfl hr₀ hndkeys
    have hcopy : (grammar.rules.foldl
        (fun m rule => m.add_rule ⟨rule.start, rule.bodies⟩) (Grammar.init e)) = grammar := by
      apply Grammar.eq_of_rules
      rw [hfold, map_mk_eta, hrules]
    simp only [mutate_bubble, hget, hb0, hentry, ok_bind]
    rw [if_pos (by rw [h0]; rfl)]
    rw [hcopy]
    rfl
  · intro h0
    have hlen : 0 < (bubbleSequences grammar).length := List.length_pos.mpr h0
    set nn := new_nonterminal grammar.keys with hnn
    set seq := (bubbleSequences grammar).get
      ⟨(rnext r).1 % (bubbleSequences grammar).length, Nat.mod_lt _ hlen⟩ with hseq
    refine ⟨seq, (rnext r).2, List.get_mem _ _ _, new_nonterminal_fresh _, ?_⟩
    have hpc : pychoice (bubbleSequences grammar) r = .ok (seq, (rnext r).2) := by
      unfold pychoice
      rw [dif_pos hlen]
    have hfold : (grammar.rules.foldl
        (fun m rule => m.add_rule
          ⟨rule.start, rule.bodies.map (fun body => replace_all body seq nn)⟩)
        (Grammar.init e)).rules
        = (r₀ :: rest).map (fun rule =>
            (⟨rule.start, rule.bodies.map (fun body => replace_all body seq nn)⟩ : Rule)) := by
      rw [hrules]
      exact foldl_add_rule_start
        (fun rule => ⟨rule.start, rule.bodies.map (fun body => replace_all body seq nn)⟩)
        (fun _ => rfl) r₀ rest ⟨"start", [[e]]⟩ rfl hr₀ hndkeys
    have hkeysfold : ((r₀ :: rest).map (fun rule =>
        (⟨rule.start, rule.bodies.map (fun body => replace_all body seq nn)⟩ : Rule))).map
          (·.start) = grammar.keys := by
      rw [List.map_map]
      show _ = grammar.rules.map (·.start)
      rw [hrules]
      rfl
    have hadd : (grammar.rules.foldl
        (fun m rule => m.add_rule
          ⟨rule.start, rule.bodies.map (fun body => replace_all body seq nn)⟩)
        (Grammar.init e)).add_rule ⟨nn, [seq]⟩
        = ⟨grammar.rules.map (fun rule =>
            (⟨rule.start, rule.bodies.map (fun body => replace_all body seq nn)⟩ : Rule)) ++
          [⟨nn, [seq]⟩]⟩ := by
      apply Grammar.eq_of_rules
      show upsert _ _ = _
      have hf : ((⟨nn, [seq]⟩ : Rule)).start ∉ (grammar.rules.foldl
          (fun m rule => m.add_rule
            ⟨rule.start, rule.bodies.map (fun body => replace_all body seq nn)⟩)
          (Grammar.init e)).rules.map (·.start) := by
        rw [hfold, hkeysfold]
        exact new_nonterminal_fresh _
      rw [upsert_not_mem _ _ hf]
      rw [hfold, hrules]
    simp only [mutate_bubble, hget, hb0, hentry, ok_bind]
    rw [if_neg (by rw [← List.length_pos] at h0; omega)]
    rw [hpc, ok_bind]
    rw [hadd]
    rfl

/-- Claim C8 witness: a grammar whose bodies admit no strict subsequence is returned as an
unchanged structural copy. -/
theorem claim8_witnessed :
    mutate_bubble ⟨[⟨"start", [["t0"]]⟩, ⟨"t0", [["a"]]⟩]⟩ [] =
      .ok (⟨[⟨"start", [["t0"]]⟩, ⟨"t0", [["a"]]⟩]⟩, []) :=
  (claim8_mutate_bubble ⟨[⟨"start", [["t0"]]⟩, ⟨"t0", [["a"]]⟩]⟩ []
    ⟨"start", [["t0"]]⟩ [⟨"t0", [["a"]]⟩] "t0" [] [] rfl rfl rfl (by decide)).1 (by decide)

lemma get_not_mem_eraseIdx : ∀ (l : List α) (i : Nat) (h : i < l.length), l.Nodup →
    l.get ⟨i, h⟩ ∉ l.eraseIdx i := by
  intro l
  induction l with
  | nil => intro i h; simp at h
  | cons a t ih =>
    intro i h hnd
    cases i with
    | zero =>
      show a ∉ t
      exact (List.nodup_cons.mp hnd).1
    | succ j =>
      show (t.get ⟨j, _⟩) ∉ a :: t.eraseIdx j
      intro hmem
      rcases List.mem_cons.mp hmem with h1 | h1
      · exact (List.nodup_cons.mp hnd).1 (h1 ▸ List.get_mem t j _)
      · exact ih j _ (List.nodup_cons.mp hnd).2 h1

lemma pysampleGo_spec : ∀ (k : Nat) (l : List α) (r : R), l.Nodup → k ≤ l.length →
    (pysampleGo l k r).1.length = k ∧ (pysampleGo l k r).1.Nodup ∧
      ∀ x ∈ (pysampleGo l k r).1, x ∈ l := by
  intro k
  induction k with
  | zero =>
    intro l r _ _
    refine ⟨rfl, List.nodup_nil, ?_⟩
    intro x hx
    simp [pysampleGo] at hx
  | succ k ih =>
    intro l r hnd hk
    have hpos : 0 < l.length := by omega
    have hred : pysampleGo l (k + 1) r =
        (l.get ⟨(rnext r).1 % l.length, Nat.mod_lt _ hpos⟩ ::
          (pysampleGo (l.eraseIdx ((rnext r).1 % l.length)) k (rnext r).2).1,
         (pysampleGo (l.eraseIdx ((rnext r).1 % l.length)) k (rnext r).2).2) := by
      show (if h : 0 < l.length then _ else _) = _
      rw [dif_pos hpos]
    have hsub := List.eraseIdx_sublist l ((rnext r).1 % l.length)
    have hnd' : (l.eraseIdx ((rnext r).1 % l.length)).Nodup := hnd.sublist hsub
    have hlen : (l.eraseIdx ((rnext r).1 % l.length)).length = l.length - 1 :=
      List.length_eraseIdx_of_lt (Nat.mod_lt _ hpos)
    obtain ⟨ihl, ihnd, ihsub⟩ := ih (l.eraseIdx ((rnext r).1 % l.length)) (rnext r).2 hnd'
      (by omega)
    rw [hred]
    refine ⟨by simp [ihl], ?_, ?_⟩
    · apply List.nodup_cons.mpr
      refine ⟨?_, ihnd⟩
      intro hmem
      exact get_not_mem_eraseIdx l _ _ hnd (ihsub _ hmem)
    · intro x hx
      rcases List.mem_cons.mp hx with h1 | h1
      · exact h1 ▸ List.get_mem l _ _
      · exact hsub.subset (ihsub x h1)

lemma pysample_spec (l : List α) (k : Nat) (r : R) (hnd : l.Nodup) (hk : k ≤ l.length) :
    ∃ picked r₂, pysample l k r = .ok (picked, r₂) ∧
      picked.length = k ∧ picked.Nodup ∧ ∀ x ∈ picked, x ∈ l := by
  obtain ⟨h1, h2, h3⟩ := pysampleGo_spec k l r hnd hk
  refine ⟨(pysampleGo l k r).1, (pysampleGo l k r).2, ?_, h1, h2, h3⟩
  unfold pysample
  rw [if_pos hk]

/-- The list form of the range object range(2, min(6, n)) of line 124: the candidate
coalesce counts 2, 3, ..., min(6, n) - 1. -/
def coalesceRange (n : Nat) : List Nat := List.range' 2 (min 6 n - 2)

/-- Translates mutate_coalesce, src/branta/search.py lines 111-147. -/
def mutate_coalesce (grammar : Grammar) (r : R) : Except PyErr (Grammar × R) := do
  let startRule ← grammar.getRule "start"
  let b0 ← listGet startRule.bodies 0
  let entry ← listGet b0 0
  let mutant := Grammar.init entry
  let nonterminals₀ := grammar.keys
  let _terminals := (grammar.rules.flatMap
    (fun rule => rule.bodies.flatMap (fun body => body))).filter
    (fun elem => !(nonterminals₀.contains elem))
  let nonterminals ← pyremove nonterminals₀ "start"
  let pc ← pychoice (coalesceRange nonterminals.length) r
  let coalesce_num := pc.1
  let ps ← pysample nonterminals coalesce_num pc.2
  let to_coalesce := ps.1
  let replacer_id := new_nonterminal nonterminals
  let mutant := grammar.rules.foldl
    (fun m rule => m.add_rule
      ⟨rule.start, rule.bodies.map (fun body => body.map
        (fun e => if e ∈ to_coalesce then replacer_id else e))⟩) mutant
  let replacer_rules := to_coalesce.flatMap
    (fun coalescee => match grammar.find coalescee with
      | some rule => rule.bodies
      | none => [])
  pure (mutant.add_rule ⟨replacer_id, replacer_rules⟩, ps.2)

/-- Claim C5 counterexample: on a grammar with exactly 2 non-entry nonterminals (the seed
grammar of the single guide "a"), mutate_coalesce raises IndexError: line 124 draws from
range(2, min(6, 2)) = range(2, 2), which is empty. This refutes both "k between 2 and 5
inclusive bounded by the available count" and "does not fail whenever at least 2 non-entry
nonterminals exist". -/
theorem claim5_counterexample :
    ((init_grammar ["a"]).keys.erase "start").length = 2 ∧
    mutate_coalesce (init_grammar ["a"]) [] = .error .indexError := ⟨rfl, rfl⟩

/-- Claim C5 (amended): the coalesce count k is drawn from range(2, min(6, n)), i.e. from
the interval [2, min(5, n - 1)] — the upper bound is min(5, n - 1), not min(5, n) — where
n is the number of non-entry nonterminals; the operation therefore needs at least 3
non-entry nonterminals (with exactly 2 it raises IndexError on the empty range), and when
n is at least 3 it succeeds for every draw, sampling k distinct non-entry nonterminals
without replacement. -/
theorem claim5_mutate_coalesce (grammar : Grammar) (r : R) (r₀ : Rule) (rest : List Rule)
    (e : String) (b1 : List String) (bs : List (List String))
    (hrules : grammar.rules = r₀ :: rest) (hr₀ : r₀.start = "start")
    (hb : r₀.bodies = (e :: b1) :: bs) (hnd : grammar.keys.Nodup)
    (h3 : 3 ≤ (grammar.keys.erase "start").length) :
    (∀ k, k ∈ coalesceRange (grammar.keys.erase "start").length ↔
      (2 ≤ k ∧ k ≤ min 5 ((grammar.keys.erase "start").length - 1))) ∧
    ∃ (k : Nat) (picked : List String) (g₂ : Grammar) (r₂ : R), mutate_coalesce grammar r = .ok (g₂, r₂) ∧
      k ∈ coalesceRange (grammar.keys.erase "start").length ∧
      picked.length = k ∧ picked.Nodup ∧
      ∀ x ∈ picked, x ∈ grammar.keys.erase "start" := by
  have hchar : ∀ k, k ∈ coalesceRange (grammar.keys.erase "start").length ↔
      (2 ≤ k ∧ k ≤ min 5 ((grammar.keys.erase "start").length - 1)) := by
    intro k
    unfold coalesceRange
    rw [List.mem_range'_1]
    omega
  refine ⟨hchar, ?_⟩
  have hget : grammar.getRule "start" = .ok r₀ := by
    unfold Grammar.getRule Grammar.find
    rw [hrules, List.find?_cons_of_pos]
    simp [hr₀]
  have hb0 : listGet r₀.bodies 0 = .ok (e :: b1) := by
    rw [hb]
    unfold listGet
    rw [dif_pos (by simp)]
    rfl
  have hentry : listGet (e :: b1) 0 = .ok e := by
    unfold listGet
    rw [dif_pos (by simp)]
    rfl
  have hmem_start : "start" ∈ grammar.keys := by
    show "start" ∈ grammar.rules.map (·.start)
    rw [hrules]
    simp [hr₀]
  have hrem : pyremove grammar.keys "start" = .ok (grammar.keys.erase "start") := by
    unfold pyremove
    rw [if_pos hmem_start]
  have hlenpos : 0 < (coalesceRange (grammar.keys.erase "start").length).length := by
    unfold coalesceRange
    simp only [List.length_range']
    omega
  set kval := (coalesceRange (grammar.keys.erase "start").length).get
    ⟨(rnext r).1 % (coalesceRange (grammar.keys.erase "start").length).length,
      Nat.mod_lt _ hlenpos⟩ with hkval
  have hkmem : kval ∈ coalesceRange (grammar.keys.erase "start").length := List.get_mem _ _ _
  have hkle : kval ≤ (grammar.keys.erase "start").length := by
    have := (hchar kval).mp hkmem
    omega
  have hndnts : (grammar.keys.erase "start").Nodup := hnd.erase "start"
  obtain ⟨picked, r₂, hps, hpl, hpnd, hpsub⟩ :=
    pysample_spec (grammar.keys.erase "start") kval (rnext r).2 hndnts hkle
  have hpc : pychoice (coalesceRange (grammar.keys.erase "start").length) r =
      .ok (kval, (rnext r).2) := by
    unfold pychoice
    rw [dif_pos hlenpos]
  refine ⟨kval, picked, ?g, r₂, ?_, hkmem, hpl, hpnd, hpsub⟩
  case g =>
    exact Grammar.add_rule
      (grammar.rules.foldl
        (fun m rule => m.add_rule
          ⟨rule.start, rule.bodies.map (fun body => body.map
            (fun x => if x ∈ picked then new_nonterminal (grammar.keys.erase "start") else x))⟩)
        (Grammar.init e))
      ⟨new_nonterminal (grammar.keys.erase "start"), picked.flatMap
        (fun coalescee => match grammar.find coalescee with
          | some rule => rule.bodies
          | none => [])⟩
  simp only [mutate_coalesce, hget, hb0, hentry, ok_bind, hrem, hpc, hps]
  rfl

/-- Claim C5 witness: the amended theorem applied to the seed grammar of guide "ab",
which has exactly 3 non-entry nonterminals. -/
theorem claim5_witnessed :
    (∀ k, k ∈ coalesceRange ((init_grammar ["ab"]).keys.erase "start").length ↔
      (2 ≤ k ∧ k ≤ min 5 (((init_grammar ["ab"]).keys.erase "start").length - 1))) ∧
    ∃ (k : Nat) (picked : List String) (g₂ : Grammar) (r₂ : R), mutate_coalesce (init_grammar ["ab"]) [0, 0, 0] = .ok (g₂, r₂) ∧
      k ∈ coalesceRange ((init_grammar ["ab"]).keys.erase "start").length ∧
      picked.length = k ∧ picked.Nodup ∧
      ∀ x ∈ picked, x ∈ (init_grammar ["ab"]).keys.erase "start" :=
  claim5_mutate_coalesce (init_grammar ["ab"]) [0, 0, 0]
    ⟨"start", [["t0"]]⟩ [⟨"t1", [["\"a\""]]⟩, ⟨"t2", [["\"b\""]]⟩, ⟨"t0", [["t1", "t2"]]⟩]
    "t0" [] [] rfl rfl rfl (by decide) (by decide)

lemma bind_eq_ok {e : Except PyErr α} {f : α → Except PyErr β} {v : β} :
    (e >>= f) = .ok v ↔ ∃ a, e = .ok a ∧ f a = .ok v := by
  cases e with
  | ok a => simp
  | error err =>
    constructor
    · intro h
      exact absurd h (by simp)
    · intro ⟨a, ha, _⟩
      cases ha

lemma pure_eq_ok {x v : α} : (pure x : Except PyErr α) = .ok v ↔ x = v := by
  constructor
  · intro h
    exact Except.ok.inj h
  · intro h
    rw [h]
    rfl

lemma pychoice_ok {l : List α} {r : R} {x : α} {r₂ : R}
    (h : pychoice l r = .ok (x, r₂)) : x ∈ l ∧ r₂ = (rnext r).2 := by
  unfold pychoice at h
  by_cases hl : 0 < l.length
  · rw [dif_pos hl] at h
    have := Except.ok.inj h
    rw [Prod.mk.injEq] at this
    exact ⟨this.1 ▸ List.get_mem _ _ _, this.2.symm⟩
  · rw [dif_neg hl] at h
    cases h

lemma pychoices1_ok {l : List α} {w : List ℚ} {r : R} {x : α} {r₂ : R}
    (h : pychoices1 l w r = .ok (x, r₂)) : x ∈ l ∧ r₂ = (rnext r).2 := by
  unfold pychoices1 at h
  by_cases hl : 0 < l.length
  · rw [dif_pos hl] at h
    have := Except.ok.inj h
    rw [Prod.mk.injEq] at this
    exact ⟨this.1 ▸ List.get_mem _ _ _, this.2.symm⟩
  · rw [dif_neg hl] at h
    cases h

lemma pyremove_ok {l : List String} {a : String} {l₂ : List String}
    (h : pyremove l a = .ok l₂) : a ∈ l ∧ l₂ = l.erase a := by
  unfold pyremove at h
  by_cases hm : a ∈ l
  · rw [if_pos hm] at h
    exact ⟨hm, (Except.ok.inj h).symm⟩
  · rw [if_neg hm] at h
    cases h

lemma listGet_ok {l : List α} {i : Nat} {x : α} (h : listGet l i = .ok x) :
    l.get? i = some x := by
  unfold listGet at h
  by_cases hi : i < l.length
  · rw [dif_pos hi] at h
    rw [List.get?_eq_get hi]
    exact congrArg some (Except.ok.inj h)
  · rw [dif_neg hi] at h
    cases h

lemma getRule_ok {g : Grammar} {k : String} {rule : Rule} (h : g.getRule k = .ok rule) :
    g.find k = some rule := by
  unfold Grammar.getRule at h
  cases hf : g.find k with
  | some r₁ =>
    rw [hf] at h
    exact congrArg some (Except.ok.inj h)
  | none =>
    rw [hf] at h
    cases h

/-- The combined draw pool of line 160: every terminal occurrence in any rule body (with
multiplicity, in iteration order), followed by the non-entry nonterminal names. -/
def alternatesList (grammar : Grammar) : List String :=
  ((grammar.rules.flatMap (fun rule => rule.bodies.flatMap (fun body => body))).filter
    (fun elem => !(grammar.keys.contains elem))) ++ grammar.keys.erase "start"

/-- Translates mutate_alternate, src/branta/search.py lines 149-180. Grammar.copy (line
153) is a deep copy; in the pure model the working copy is the grammar value itself, and
the in-place add_body of line 174 becomes a keyed rule replacement. The dict accesses
mutant.rules[rule_key] of lines 166-174 are fetched once (the key is always present: it
was drawn from the key list). -/
def mutate_alternate (grammar : Grammar) (r : R) : Except PyErr (Grammar × R) := do
  let mutant := grammar
  let nonterminals₀ := mutant.keys
  let terminals := (mutant.rules.flatMap
    (fun rule => rule.bodies.flatMap (fun body => body))).filter
    (fun elem => !(nonterminals₀.contains elem))
  let nonterminals ← pyremove nonterminals₀ "start"
  let alternates := terminals ++ nonterminals
  let total_num_rules := (nonterminals.flatMap
    (fun nonterm => match mutant.find nonterm with
      | some rule => rule.bodies
      | none => [])).length
  let weights ← nonterminals.mapM (fun nonterm => pyDiv
    ((match mutant.find nonterm with
      | some rule => rule.bodies
      | none => []).length : ℚ) (total_num_rules : ℚ))
  let pc ← pychoices1 nonterminals weights r
  let rule_key := pc.1
  let keyRule ← mutant.getRule rule_key
  let pb ← pychoice (List.range keyRule.bodies.length) pc.2
  let body_idx := pb.1
  let body ← listGet keyRule.bodies body_idx
  let pa ← pychoice (List.range body.length) pb.2
  let alternate_idx := pa.1
  let cur ← listGet body alternate_idx
  let alternates₂ ← pyremove alternates cur
  let pal ← pychoice alternates₂ pa.2
  let alternate := pal.1
  let new_body := body.set alternate_idx alternate
  pure (mutant.add_rule (keyRule.add_body new_body), pal.2)

/-- Claim C6 counterexample: on a grammar whose chosen body holds the terminal "a" twice,
the draw pool (line 158) lists that terminal once per occurrence and .remove (line 169)
deletes only the first copy, so the replacement draw can return the symbol currently at
the chosen position: the appended body equals the original body, refuting "the appended
body always differs from the original body at exactly that one position". -/
theorem claim6_counterexample :
    mutate_alternate ⟨[⟨"start", [["t0"]]⟩, ⟨"t0", [["\"a\"", "\"a\""]]⟩]⟩ [0, 0, 0, 0] =
      .ok (⟨[⟨"start", [["t0"]]⟩,
        ⟨"t0", [["\"a\"", "\"a\""], ["\"a\"", "\"a\""]]⟩]⟩, []) := rfl

/-- Claim C6 (amended): after a (nonterminal, body, position) site is chosen, the
replacement symbol is drawn from the occurrence list of all terminals (once per
occurrence, so the draw is weighted by multiplicity rather than uniform over the distinct
alphabet) plus the non-entry nonterminals, with only the first occurrence of the current
symbol removed; the original body is kept and a single new body, equal to the original
with the chosen position replaced, is appended — it differs from the original at that
position whenever the current symbol occurs exactly once in the pool, but when the current
symbol is a terminal with several occurrences the replacement may equal it. -/
theorem claim6_mutate_alternate (grammar : Grammar) (r : R) (g₂ : Grammar) (r₂ : R)
    (h : mutate_alternate grammar r = .ok (g₂, r₂)) :
    ∃ (rule_key : String) (keyRule : Rule) (body : List String) (bidx aidx : Nat)
      (cur alt : String),
      grammar.find rule_key = some keyRule ∧
      rule_key ∈ grammar.keys.erase "start" ∧
      keyRule.bodies.get? bidx = some body ∧
      body.get? aidx = some cur ∧
      alt ∈ (alternatesList grammar).erase cur ∧
      ((alternatesList grammar).count cur = 1 → alt ≠ cur) ∧
      g₂ = grammar.add_rule (keyRule.add_body (body.set aidx alt)) := by
  simp only [mutate_alternate, bind_eq_ok, pure_eq_ok] at h
  obtain ⟨nts, hrem, ws, _hws, pc, hpc, keyRule, hkr, pb, hpb, body, hbody, pa, hpa,
    cur, hcur, alt₂, hrem₂, pal, hpal, hfin⟩ := h
  obtain ⟨hstartmem, hnts⟩ := pyremove_ok hrem
  obtain ⟨hkey_mem, _⟩ := pychoices1_ok hpc
  obtain ⟨hcur_mem, halt₂⟩ := pyremove_ok hrem₂
  obtain ⟨halt_mem, _⟩ := pychoice_ok hpal
  have hfin' : grammar.add_rule (keyRule.add_body (body.set pa.1 pal.1)) = g₂ ∧ pal.2 = r₂ := by
    rw [Prod.mk.injEq] at hfin
    exact hfin
  subst hnts
  refine ⟨pc.1, keyRule, body, pb.1, pa.1, cur, pal.1, getRule_ok hkr, hkey_mem,
    listGet_ok hbody, listGet_ok hcur, ?_, ?_, hfin'.1.symm⟩
  · rw [halt₂] at halt_mem
    exact halt_mem
  · intro hcount halteq
    rw [halt₂] at halt_mem
    have hzero : (alternatesList grammar).count cur - 1 = 0 := by omega
    have : cur ∉ (alternatesList grammar).erase cur := by
      rw [← List.count_pos_iff_mem]
      rw [List.count_erase_self]
      omega
    exact this (halteq ▸ halt_mem)

/-- Claim C6 witness: the amended theorem applied to a concrete run in which the current
symbol occurs once, so the appended body genuinely differs at the chosen position. -/
theorem claim6_witnessed :
    ∃ (rule_key : String) (keyRule : Rule) (body : List String) (bidx aidx : Nat)
      (cur alt : String),
      (⟨[⟨"start", [["t0"]]⟩, ⟨"t0", [["\"a\""]]⟩]⟩ : Grammar).find rule_key = some keyRule ∧
      rule_key ∈ (⟨[⟨"start", [["t0"]]⟩, ⟨"t0", [["\"a\""]]⟩]⟩ : Grammar).keys.erase "start" ∧
      keyRule.bodies.get? bidx = some body ∧
      body.get? aidx = some cur ∧
      alt ∈ (alternatesList ⟨[⟨"start", [["t0"]]⟩, ⟨"t0", [["\"a\""]]⟩]⟩).erase cur ∧
      ((alternatesList ⟨[⟨"start", [["t0"]]⟩, ⟨"t0", [["\"a\""]]⟩]⟩).count cur = 1 → alt ≠ cur) ∧
      (⟨[⟨"start", [["t0"]]⟩, ⟨"t0", [["\"a\""], ["t0"]]⟩]⟩ : Grammar) =
        (⟨[⟨"start", [["t0"]]⟩, ⟨"t0", [["\"a\""]]⟩]⟩ : Grammar).add_rule
          (keyRule.add_body (body.set aidx alt)) :=
  claim6_mutate_alternate ⟨[⟨"start", [["t0"]]⟩, ⟨"t0", [["\"a\""]]⟩]⟩ [0, 0, 0, 0]
    ⟨[⟨"start", [["t0"]]⟩, ⟨"t0", [["\"a\""], ["t0"]]⟩]⟩ [] rfl

/-- Translates mutate_repeat, src/branta/search.py lines 182-219. The dict accesses
grammar.rules[nonterm] of lines 192-199 use keys drawn from the key list, which are
always present. -/
def mutate_repeat (grammar : Grammar) (r : R) : Except PyErr (Grammar × R) := do
  let startRule ← grammar.getRule "start"
  let b0 ← listGet startRule.bodies 0
  let entry ← listGet b0 0
  let mutant := Grammar.init entry
  let nonterminals ← pyremove grammar.keys "start"
  let total_num_rules := (nonterminals.flatMap
    (fun nonterm => match grammar.find nonterm with
      | some rule => rule.bodies
      | none => [])).length
  let weights ← nonterminals.mapM (fun nonterm => pyDiv
    ((match grammar.find nonterm with
      | some rule => rule.bodies
      | none => []).length : ℚ) (total_num_rules : ℚ))
  let pc ← pychoices1 nonterminals weights r
  let rule_key := pc.1
  let keyRule ← grammar.getRule rule_key
  let pb ← pychoice (List.range keyRule.bodies.length) pc.2
  let body_idx := pb.1
  let body ← listGet keyRule.bodies body_idx
  let pidx ← pychoice (List.range body.length) pb.2
  let repeat_idx := pidx.1
  let repeat_elem ← listGet body repeat_idx
  let repeater_name := new_nonterminal nonterminals
  let mutant := grammar.rules.foldl
    (fun m rule => m.add_rule (if rule.start = rule_key then
        ⟨rule.start, rule.bodies.enum.map (fun ib =>
          if ib.1 = body_idx then
            ib.2.take repeat_idx ++ repeater_name :: ib.2.drop (repeat_idx + 1)
          else ib.2)⟩
      else ⟨rule.start, rule.bodies⟩)) mutant
  pure (mutant.add_rule
    ⟨repeater_name, [[repeat_elem], [repeat_elem, repeater_name]]⟩, pidx.2)

/-- Claim C7 counterexample: a grammar that has non-empty bodies but also one empty body;
the random site selection can land on the empty body, where random.choice(range(0))
raises IndexError, so "for every grammar with at least one non-empty body mutate_repeat
produces a grammar ..." fails: here it produces nothing. -/
theorem claim7_counterexample :
    mutate_repeat ⟨[⟨"start", [["t0"]]⟩, ⟨"t0", [["\"a\""], []]⟩]⟩ [0, 1] =
      .error .indexError := rfl

/-- Claim C7 (amended): whenever mutate_repeat succeeds (in particular whenever the drawn
site lies in a non-empty body; drawing an empty body raises IndexError instead), the
result replaces the chosen position of the chosen body with a fresh nonterminal R not
colliding with any existing rule name, appends a new rule giving R exactly the two bodies
[x] and [x, R] where x was the symbol at the chosen position, and copies every other rule
and body unchanged. -/
theorem claim7_mutate_repeat (grammar : Grammar) (r : R) (g₂ : Grammar) (r₂ : R)
    (r₀ : Rule) (rest : List Rule) (hrules : grammar.rules = r₀ :: rest)
    (hr₀ : r₀.start = "start") (hnd : grammar.keys.Nodup)
    (h : mutate_repeat grammar r = .ok (g₂, r₂)) :
    ∃ (rule_key : String) (keyRule : Rule) (body : List String) (bidx ridx : Nat)
      (x : String),
      grammar.find rule_key = some keyRule ∧
      rule_key ∈ grammar.keys.erase "start" ∧
      keyRule.bodies.get? bidx = some body ∧
      body.get? ridx = some x ∧
      new_nonterminal (grammar.keys.erase "start") ∉ grammar.keys ∧
      g₂.rules = grammar.rules.map (fun rule =>
          if rule.start = rule_key then
            (⟨rule.start, rule.bodies.enum.map (fun ib =>
              if ib.1 = bidx then
                ib.2.take ridx ++
                  new_nonterminal (grammar.keys.erase "start") :: ib.2.drop (ridx + 1)
              else ib.2)⟩ : Rule)
          else ⟨rule.start, rule.bodies⟩) ++
        [⟨new_nonterminal (grammar.keys.erase "start"),
          [[x], [x, new_nonterminal (grammar.keys.erase "start")]]⟩] := by
  simp only [mutate_repeat, bind_eq_ok, pure_eq_ok] at h
  obtain ⟨sr, _hsr, b0, _hb0, entry, _hentry, nts, hrem, ws, _hws, pc, hpc, keyRule, hkr,
    pb, hpb, body, hbody, pidx, hpidx, x, hx, hfin⟩ := h
  obtain ⟨hstartmem, hnts⟩ := pyremove_ok hrem
  obtain ⟨hkey_mem, _⟩ := pychoices1_ok hpc
  subst hnts
  have hfresh_all : new_nonterminal (grammar.keys.erase "start") ∉ grammar.keys := by
    intro hmem
    by_cases hs : new_nonterminal (grammar.keys.erase "start") = "start"
    · exact new_nonterminal_ne_start _ hs
    · exact new_nonterminal_fresh (grammar.keys.erase "start")
        ((List.mem_erase_of_ne hs).mpr hmem)
  have hfin' : (grammar.rules.foldl
      (fun m rule => m.add_rule (if rule.start = pc.1 then
          (⟨rule.start, rule.bodies.enum.map (fun ib =>
            if ib.1 = pb.1 then
              ib.2.take pidx.1 ++
                new_nonterminal (grammar.keys.erase "start") :: ib.2.drop (pidx.1 + 1)
            else ib.2)⟩ : Rule)
        else ⟨rule.start, rule.bodies⟩)) (Grammar.init entry)).add_rule
      ⟨new_nonterminal (grammar.keys.erase "start"),
        [[x], [x, new_nonterminal (grammar.keys.erase "start")]]⟩ = g₂ ∧ pidx.2 = r₂ := by
    rw [Prod.mk.injEq] at hfin
    exact hfin
  have hf : ∀ rule : Rule, ((if rule.start = pc.1 then
      (⟨rule.start, rule.bodies.enum.map (fun ib =>
        if ib.1 = pb.1 then
          ib.2.take pidx.1 ++
            new_nonterminal (grammar.keys.erase "start") :: ib.2.drop (pidx.1 + 1)
        else ib.2)⟩ : Rule)
    else ⟨rule.start, rule.bodies⟩) : Rule).start = rule.start := by
    intro rule
    by_cases hc : rule.start = pc.1
    · rw [if_pos hc]
    · rw [if_neg hc]
  have hndkeys : ((r₀ :: rest).map (·.start)).Nodup := by
    rw [← hrules]
    exact hnd
  have hfold : (grammar.rules.foldl
      (fun m rule => m.add_rule (if rule.start = pc.1 then
          (⟨rule.start, rule.bodies.enum.map (fun ib =>
            if ib.1 = pb.1 then
              ib.2.take pidx.1 ++
                new_nonterminal (grammar.keys.erase "start") :: ib.2.drop (pidx.1 + 1)
            else ib.2)⟩ : Rule)
        else ⟨rule.start, rule.bodies⟩)) (Grammar.init entry)).rules
      = grammar.rules.map (fun rule => (if rule.start = pc.1 then
          (⟨rule.start, rule.bodies.enum.map (fun ib =>
            if ib.1 = pb.1 then
              ib.2.take pidx.1 ++
                new_nonterminal (grammar.keys.erase "start") :: ib.2.drop (pidx.1 + 1)
            else ib.2)⟩ : Rule)
        else ⟨rule.start, rule.bodies⟩)) := by
    rw [hrules]
    exact foldl_add_rule_start _ hf r₀ rest ⟨"start", [[entry]]⟩ rfl hr₀ hndkeys
  have hkeysfold : (grammar.rules.map (fun rule => (if rule.start = pc.1 then
      (⟨rule.start, rule.bodies.enum.map (fun ib =>
        if ib.1 = pb.1 then
          ib.2.take pidx.1 ++
            new_nonterminal (grammar.keys.erase "start") :: ib.2.drop (pidx.1 + 1)
        else ib.2)⟩ : Rule)
    else ⟨rule.start, rule.bodies⟩))).map (·.start) = grammar.keys := by
    rw [List.map_map]
    show _ = grammar.rules.map (·.start)
    apply List.map_congr_left
    intro rule _
    exact hf rule
  refine ⟨pc.1, keyRule, body, pb.1, pidx.1, x, getRule_ok hkr, hkey_mem,
    listGet_ok hbody, listGet_ok hx, hfresh_all, ?_⟩
  have hfoldG : (grammar.rules.foldl
      (fun m rule => m.add_rule (if rule.start = pc.1 then
          (⟨rule.start, rule.bodies.enum.map (fun ib =>
            if ib.1 = pb.1 then
              ib.2.take pidx.1 ++
                new_nonterminal (grammar.keys.erase "start") :: ib.2.drop (pidx.1 + 1)
            else ib.2)⟩ : Rule)
        else ⟨rule.start, rule.bodies⟩)) (Grammar.init entry))
      = ⟨grammar.rules.map (fun rule => (if rule.start = pc.1 then
          (⟨rule.start, rule.bodies.enum.map (fun ib =>
            if ib.1 = pb.1 then
              ib.2.take pidx.1 ++
                new_nonterminal (grammar.keys.erase "start") :: ib.2.drop (pidx.1 + 1)
            else ib.2)⟩ : Rule)
        else ⟨rule.start, rule.bodies⟩))⟩ :=
    Grammar.eq_of_rules _ _ hfold
  rw [← hfin'.1, hfoldG]
  show upsert (grammar.rules.map (fun rule => (if rule.start = pc.1 then
      (⟨rule.start, rule.bodies.enum.map (fun ib =>
        if ib.1 = pb.1 then
          ib.2.take pidx.1 ++
            new_nonterminal (grammar.keys.erase "start") :: ib.2.drop (pidx.1 + 1)
        else ib.2)⟩ : Rule)
    else ⟨rule.start, rule.bodies⟩))) _ = _
  rw [upsert_not_mem]
  rw [hkeysfold]
  exact hfresh_all

/-- Claim C7 witness: the amended theorem applied to a concrete successful run (the seed
shape with a single one-position body). -/
theorem claim7_witnessed :
    ∃ (rule_key : String) (keyRule : Rule) (body : List String) (bidx ridx : Nat)
      (x : String),
      (⟨[⟨"start", [["t0"]]⟩, ⟨"t0", [["\"a\""]]⟩]⟩ : Grammar).find rule_key = some keyRule ∧
      rule_key ∈ (⟨[⟨"start", [["t0"]]⟩, ⟨"t0", [["\"a\""]]⟩]⟩ : Grammar).keys.erase "start" ∧
      keyRule.bodies.get? bidx = some body ∧
      body.get? ridx = some x ∧
      new_nonterminal ((⟨[⟨"start", [["t0"]]⟩, ⟨"t0", [["\"a\""]]⟩]⟩ : Grammar).keys.erase "start") ∉
        (⟨[⟨"start", [["t0"]]⟩, ⟨"t0", [["\"a\""]]⟩]⟩ : Grammar).keys ∧
      (⟨[⟨"start", [["t0"]]⟩, ⟨"t0", [["t1"]]⟩,
          ⟨"t1", [["\"a\""], ["\"a\"", "t1"]]⟩]⟩ : Grammar).rules =
        (⟨[⟨"start", [["t0"]]⟩, ⟨"t0", [["\"a\""]]⟩]⟩ : Grammar).rules.map (fun rule =>
            if rule.start = rule_key then
              (⟨rule.start, rule.bodies.enum.map (fun ib =>
                if ib.1 = bidx then
                  ib.2.take ridx ++
                    new_nonterminal
                      ((⟨[⟨"start", [["t0"]]⟩, ⟨"t0", [["\"a\""]]⟩]⟩ : Grammar).keys.erase
                        "start") :: ib.2.drop (ridx + 1)
                else ib.2)⟩ : Rule)
            else ⟨rule.start, rule.bodies⟩) ++
          [⟨new_nonterminal
              ((⟨[⟨"start", [["t0"]]⟩, ⟨"t0", [["\"a\""]]⟩]⟩ : Grammar).keys.erase "start"),
            [[x], [x, new_nonterminal
              ((⟨[⟨"start", [["t0"]]⟩, ⟨"t0", [["\"a\""]]⟩]⟩ : Grammar).keys.erase "start")]]⟩] :=
  claim7_mutate_repeat ⟨[⟨"start", [["t0"]]⟩, ⟨"t0", [["\"a\""]]⟩]⟩ [0, 0, 0]
    ⟨[⟨"start", [["t0"]]⟩, ⟨"t0", [["t1"]]⟩, ⟨"t1", [["\"a\""], ["\"a\"", "t1"]]⟩]⟩ []
    ⟨"start", [["t0"]]⟩ [⟨"t0", [["\"a\""]]⟩] rfl rfl (by decide) rfl

/-- POPULATION_SIZE, src/branta/search.py line 12. -/
def POPULATION_SIZE : Nat := 20

/-- A population entry (grammar, generation id, score), line 235. -/
abbrev PopEntry := Grammar × Nat × ℚ

/-- The mutable state shared by the nested helpers of search: the population, the
generation counter cur_gram_id and the tracked minimum_score (lines 232-235,
250-251, 284-285). -/
structure SState where
  population : List PopEntry
  cur_gram_id : Nat
  minimum_score : ℚ
deriving DecidableEq

/-- The eviction loop of lines 300-301: while len(population) > POPULATION_SIZE, pop the
lowest-scoring (front) entry. -/
def evictLoop : List PopEntry → List PopEntry
  | [] => []
  | e :: l => if (e :: l).length > POPULATION_SIZE then evictLoop l else e :: l

/-- Python list.insert(idx, x) (line 297). -/
def pyinsert (idx : Nat) (x : α) : List α → List α
  | [] => [x]
  | a :: l => match idx with
    | 0 => x :: a :: l
    | n + 1 => a :: pyinsert n x l

/-- The score of the first (lowest) population entry, population[0][2] (line 303). -/
def headScore : List PopEntry → ℚ
  | [] => 0
  | e :: _ => e.2.2

/-- Translates add_to_population, src/branta/search.py lines 280-303: assert the score
strictly beats the tracked minimum, walk to the first entry of strictly greater score
(so a new entry lands after every existing entry of less-or-equal score), insert there,
evict from the low-score front while over capacity, and refresh the minimum from the new
lowest entry. -/
def add_to_population (st : SState) (grammar : Grammar) (score : ℚ) (grammar_id : Nat) :
    Except PyErr SState :=
  if score > st.minimum_score then
    match evictLoop (pyinsert
        ((st.population.takeWhile (fun elem => decide (elem.2.2 ≤ score))).length)
        (grammar, grammar_id, score) st.population) with
    | [] => .error .indexError
    | e :: l => .ok ⟨e :: l, st.cur_gram_id, e.2.2⟩
  else .error .assertionError

/-- The mutation cascade of lines 257-262: each step draws one of the four operators
uniformly and applies it to the previous step's output. -/
def mutationCascade : Nat → Grammar → R → Except PyErr (Grammar × R)
  | 0, mutant, r => .ok (mutant, r)
  | n + 1, mutant, r => do
    let pf ← pychoice [mutate_bubble, mutate_coalesce, mutate_alternate, mutate_repeat] r
    let pm ← pf.1 mutant pf.2
    mutationCascade n pm.1 pm.2

/-- Translates fuzz_one, src/branta/search.py lines 245-278: bump the grammar id, draw a
cascade length from [1, 2, 4, 8, 16], score the parent (before_score, line 256, unused),
run the cascade, score the final mutant once, and admit it only when it strictly beats
the tracked minimum. The cache-invalidation statements (lines 258, 264-266) touch only
caching flags and are no-ops in the pure model. -/
def fuzz_one (E : Engine) (scorer : Scorer) (parent_grammar : Grammar) (st : SState)
    (r : R) : Except PyErr (SState × R) := do
  let cur_gram_id := st.cur_gram_id + 1
  let pn ← pychoice [1, 2, 4, 8, 16] r
  let num_mutations := pn.1
  let _before_score ← scorer.score E parent_grammar
  let pm ← mutationCascade num_mutations parent_grammar pn.2
  let mutant := pm.1
  let mutant_score ← scorer.score E mutant
  if mutant_score > st.minimum_score then do
    let st₂ ← add_to_population ⟨st.population, cur_gram_id, st.minimum_score⟩
      mutant mutant_score cur_gram_id
    pure (st₂, pm.2)
  else
    pure (⟨st.population, cur_gram_id, st.minimum_score⟩, pm.2)

/-- Translates choose_parent, lines 239-243: uniform choice over the population. -/
def choose_parent (population : List PopEntry) (r : R) : Except PyErr (PopEntry × R) :=
  pychoice population r

/-- One generation of the loop body, lines 308-309. -/
def generation (E : Engine) (scorer : Scorer) (st : SState) (r : R) :
    Except PyErr (SState × R) := do
  let pp ← choose_parent st.population r
  fuzz_one E scorer pp.1.1 st pp.2

/-- The generation loop, executing a fixed number of iterations (line 307 runs it with
exactly 30). -/
def runGens (E : Engine) (scorer : Scorer) : Nat → SState → R → Except PyErr (SState × R)
  | 0, st, r => .ok (st, r)
  | n + 1, st, r => do
    let p ← generation E scorer st r
    runGens E scorer n p.1 p.2

/-- Translates search, src/branta/search.py lines 224-312: seed the population with the
guide grammar, run exactly 30 generations (select parent, mutation cascade, score,
conditional admission), print the best score — and fall off the end: the Python function
has no return statement despite its `-> Grammar` annotation, so it returns None, modelled
as the `none` component of the result. The unused oracle argument is omitted. -/
def search (E : Engine) (guides positives negatives : List String) (r : R) :
    Except PyErr (Option Grammar × R) := do
  let initial_grammar := init_grammar guides
  let scorer : Scorer := ⟨positives, negatives⟩
  let minimum_score ← scorer.score E initial_grammar
  let st : SState := ⟨[(initial_grammar, 0, minimum_score)], 0, minimum_score⟩
  let p ← runGens E scorer 30 st r
  pure (none, p.2)

/-- The loop state reached after the first i generations of a search run (search itself
is runSearchPrefix at i = 30 followed by the missing return). -/
def runSearchPrefix (E : Engine) (guides positives negatives : List String) (i : Nat)
    (r : R) : Except PyErr (SState × R) := do
  let initial_grammar := init_grammar guides
  let scorer : Scorer := ⟨positives, negatives⟩
  let minimum_score ← scorer.score E initial_grammar
  let st : SState := ⟨[(initial_grammar, 0, minimum_score)], 0, minimum_score⟩
  runGens E scorer i st r

/-- The population ordering maintained by the engine: ascending score, ties ordered by
generation id (older first). -/
def entryLt (a b : PopEntry) : Prop :=
  a.2.2 < b.2.2 ∨ (a.2.2 = b.2.2 ∧ a.2.1 < b.2.1)

lemma entryLt_score_le {a b : PopEntry} (h : entryLt a b) : a.2.2 ≤ b.2.2 := by
  rcases h with h | h
  · exact le_of_lt h
  · exact le_of_eq h.1

lemma pyinsert_length : ∀ (l : List α) (idx : Nat) (x : α),
    (pyinsert idx x l).length = l.length + 1 := by
  intro l
  induction l with
  | nil => intro idx x; simp [pyinsert]
  | cons a t ih =>
    intro idx x
    cases idx with
    | zero => simp [pyinsert]
    | succ n => simp [pyinsert, ih]

lemma mem_pyinsert : ∀ (l : List α) (idx : Nat) (x y : α),
    y ∈ pyinsert idx x l → y = x ∨ y ∈ l := by
  intro l
  induction l with
  | nil =>
    intro idx x y hy
    simp [pyinsert] at hy
    exact Or.inl hy
  | cons a t ih =>
    intro idx x y hy
    cases idx with
    | zero =>
      rcases List.mem_cons.mp hy with h | h
      · exact Or.inl h
      · exact Or.inr h
    | succ n =>
      rcases List.mem_cons.mp hy with h | h
      · exact Or.inr (h ▸ List.mem_cons_self a t)
      · rcases ih n x y h with h2 | h2
        · exact Or.inl h2
        · exact Or.inr (List.mem_cons_of_mem a h2)

lemma pyinsert_eq : ∀ (l : List α) (idx : Nat) (x : α), idx ≤ l.length →
    pyinsert idx x l = l.take idx ++ x :: l.drop idx := by
  intro l
  induction l with
  | nil =>
    intro idx x h
    have : idx = 0 := by simpa using h
    subst this
    simp [pyinsert]
  | cons a t ih =>
    intro idx x h
    cases idx with
    | zero => simp [pyinsert]
    | succ n =>
      simp only [pyinsert, List.take_succ_cons, List.drop_succ_cons]
      rw [ih n x (by simpa using h)]
      rfl

lemma takeWhile_length_le (p : α → Bool) (l : List α) : (l.takeWhile p).length ≤ l.length := by
  have h := congrArg List.length (@List.takeWhile_append_dropWhile _ p l)
  rw [List.length_append] at h
  omega

lemma mem_takeWhile_mem (p : α → Bool) (l : List α) (b : α) (h : b ∈ l.takeWhile p) :
    b ∈ l := by
  have hs := @List.takeWhile_append_dropWhile _ p l
  rw [← hs]
  exact List.mem_append_left _ h

lemma dropWhile_score_gt (s : ℚ) : ∀ (l : List PopEntry), l.Pairwise entryLt →
    ∀ b ∈ l.dropWhile (fun e => decide (e.2.2 ≤ s)), s < b.2.2 := by
  intro l
  induction l with
  | nil =>
    intro _ b hb
    simp [List.dropWhile] at hb
  | cons a t ih =>
    intro hp b hb
    by_cases ha : a.2.2 ≤ s
    · rw [List.dropWhile_cons, if_pos (by simpa using ha)] at hb
      exact ih (List.pairwise_cons.mp hp).2 b hb
    · rw [List.dropWhile_cons, if_neg (by simpa using ha)] at hb
      rcases List.mem_cons.mp hb with h1 | h1
      · subst h1
        exact not_le.mp ha
      · have h2 := entryLt_score_le ((List.pairwise_cons.mp hp).1 b h1)
        have h3 := not_le.mp ha
        linarith

lemma pairwise_insert_entry (l : List PopEntry) (x : PopEntry)
    (hl : l.Pairwise entryLt) (hgid : ∀ e ∈ l, e.2.1 < x.2.1) :
    (pyinsert ((l.takeWhile (fun e => decide (e.2.2 ≤ x.2.2))).length) x l).Pairwise
      entryLt := by
  have hsplit := @List.takeWhile_append_dropWhile _
    (fun e : PopEntry => decide (e.2.2 ≤ x.2.2)) l
  rw [pyinsert_eq l _ x (takeWhile_length_le _ l)]
  have htake : l.take ((l.takeWhile (fun e => decide (e.2.2 ≤ x.2.2))).length)
      = l.takeWhile (fun e => decide (e.2.2 ≤ x.2.2)) := by
    nth_rewrite 2 [← hsplit]
    rw [List.take_left]
  have hdrop : l.drop ((l.takeWhile (fun e => decide (e.2.2 ≤ x.2.2))).length)
      = l.dropWhile (fun e => decide (e.2.2 ≤ x.2.2)) := by
    nth_rewrite 2 [← hsplit]
    rw [List.drop_left]
  rw [htake, hdrop]
  rw [List.pairwise_append]
  have hl2 := List.pairwise_append.mp (show
    ((l.takeWhile (fun e => decide (e.2.2 ≤ x.2.2))) ++
      (l.dropWhile (fun e => decide (e.2.2 ≤ x.2.2)))).Pairwise entryLt by
    rw [hsplit]; exact hl)
  refine ⟨hl2.1, ?_, ?_⟩
  · rw [List.pairwise_cons]
    exact ⟨fun b hb => Or.inl (dropWhile_score_gt x.2.2 l hl b hb), hl2.2.1⟩
  · intro a ha b hb
    rcases List.mem_cons.mp hb with h1 | h1
    · subst h1
      have hpa : a.2.2 ≤ b.2.2 := by
        have := List.mem_takeWhile_imp ha
        simpa using this
      rcases lt_or_eq_of_le hpa with h2 | h2
      · exact Or.inl h2
      · exact Or.inr ⟨h2, hgid a (mem_takeWhile_mem _ l a ha)⟩
    · exact hl2.2.2 a ha b h1

lemma evictLoop_eq_drop : ∀ l : List PopEntry,
    evictLoop l = l.drop (l.length - POPULATION_SIZE) := by
  intro l
  induction l with
  | nil => rfl
  | cons e t ih =>
    unfold evictLoop
    by_cases h : (e :: t).length > POPULATION_SIZE
    · rw [if_pos h, ih]
      have h20 : (e :: t).length - POPULATION_SIZE = (t.length - POPULATION_SIZE) + 1 := by
        simp only [List.length_cons] at h ⊢
        omega
      rw [h20]
      rfl
    · rw [if_neg h]
      have h0 : (e :: t).length - POPULATION_SIZE = 0 := by
        simp only [List.length_cons] at h ⊢
        omega
      rw [h0]
      rfl

lemma evictLoop_length (l : List PopEntry) :
    (evictLoop l).length = min l.length POPULATION_SIZE := by
  rw [evictLoop_eq_drop, List.length_drop]
  omega

lemma evictLoop_sublist (l : List PopEntry) : List.Sublist (evictLoop l) l := by
  rw [evictLoop_eq_drop]
  exact List.drop_sublist _ _

lemma add_to_population_ok (pop : List PopEntry) (cur : Nat) (minsc : ℚ)
    (g : Grammar) (sc : ℚ) (gid : Nat)
    (_hne : pop ≠ []) (hsorted : pop.Pairwise entryLt)
    (hgid : ∀ e ∈ pop, e.2.1 < gid)
    (hgt : sc > minsc) :
    ∃ (e : PopEntry) (t : List PopEntry),
      add_to_population ⟨pop, cur, minsc⟩ g sc gid = .ok ⟨e :: t, cur, e.2.2⟩ ∧
      (e :: t).length ≤ POPULATION_SIZE ∧
      (e :: t).Pairwise entryLt ∧
      (∀ x ∈ e :: t, x ∈ pop ∨ x = (g, gid, sc)) ∧
      (∀ x ∈ e :: t, x.2.1 ≤ gid) := by
  have hinslen : (pyinsert ((pop.takeWhile (fun e => decide (e.2.2 ≤ sc))).length)
      (g, gid, sc) pop).length = pop.length + 1 := pyinsert_length pop _ _
  have hevne : evictLoop (pyinsert ((pop.takeWhile (fun e => decide (e.2.2 ≤ sc))).length)
      (g, gid, sc) pop) ≠ [] := by
    rw [← List.length_pos, evictLoop_length, hinslen]
    have : POPULATION_SIZE = 20 := rfl
    omega
  obtain ⟨e, t, het⟩ : ∃ e t, evictLoop (pyinsert
      ((pop.takeWhile (fun e => decide (e.2.2 ≤ sc))).length) (g, gid, sc) pop) = e :: t := by
    cases hev : evictLoop (pyinsert
        ((pop.takeWhile (fun e => decide (e.2.2 ≤ sc))).length) (g, gid, sc) pop) with
    | nil => exact absurd hev hevne
    | cons e t => exact ⟨e, t, rfl⟩
  have hpair : (pyinsert ((pop.takeWhile (fun e => decide (e.2.2 ≤ sc))).length)
      (g, gid, sc) pop).Pairwise entryLt := pairwise_insert_entry pop (g, gid, sc) hsorted hgid
  have hevsub := evictLoop_sublist (pyinsert
    ((pop.takeWhile (fun e => decide (e.2.2 ≤ sc))).length) (g, gid, sc) pop)
  refine ⟨e, t, ?_, ?_, ?_, ?_, ?_⟩
  · unfold add_to_population
    rw [if_pos hgt]
    show (match evictLoop (pyinsert
        ((pop.takeWhile (fun e => decide (e.2.2 ≤ sc))).length) (g, gid, sc) pop) with
      | [] => (.error .indexError : Except PyErr SState)
      | e :: l => .ok ⟨e :: l, cur, e.2.2⟩) = _
    rw [het]
  · rw [← het, evictLoop_length, hinslen]
    omega
  · rw [← het]
    exact hpair.sublist hevsub
  · intro x hx
    have hx2 : x ∈ pyinsert ((pop.takeWhile (fun e => decide (e.2.2 ≤ sc))).length)
        (g, gid, sc) pop := hevsub.subset (het ▸ hx)
    rcases mem_pyinsert pop _ (g, gid, sc) x hx2 with h | h
    · exact Or.inr h
    · exact Or.inl h
  · intro x hx
    have hx2 : x ∈ pyinsert ((pop.takeWhile (fun e => decide (e.2.2 ≤ sc))).length)
        (g, gid, sc) pop := hevsub.subset (het ▸ hx)
    rcases mem_pyinsert pop _ (g, gid, sc) x hx2 with h | h
    · rw [h]
    · exact le_of_lt (hgid x h)

/-- The population invariant of the search engine: non-empty population, size at most
POPULATION_SIZE, sorted ascending by score with equal scores ordered older-first, the
tracked minimum equal to the first (lowest) entry's score, and all generation ids at most
the current counter. -/
structure PopInv (st : SState) : Prop where
  ne : st.population ≠ []
  size : st.population.length ≤ POPULATION_SIZE
  sorted : st.population.Pairwise entryLt
  minEq : st.minimum_score = headScore st.population
  gidLe : ∀ e ∈ st.population, e.2.1 ≤ st.cur_gram_id

lemma fuzz_one_step (E : Engine) (scorer : Scorer) (parent : Grammar) (st : SState)
    (st₂ : SState) (r r₂ : R) (hinv : PopInv st)
    (h : fuzz_one E scorer parent st r = .ok (st₂, r₂)) :
    PopInv st₂ ∧ st₂.cur_gram_id = st.cur_gram_id + 1 ∧
      ∀ e ∈ st₂.population, e ∈ st.population ∨ st.minimum_score < e.2.2 := by
  simp only [fuzz_one, bind_eq_ok, pure_eq_ok] at h
  obtain ⟨pn, _hpn, bsc, _hbsc, pm, _hpm, ms, _hms, h⟩ := h
  by_cases hcmp : ms > st.minimum_score
  · rw [if_pos hcmp] at h
    simp only [bind_eq_ok, pure_eq_ok] at h
    obtain ⟨st', hadd, hpure⟩ := h
    have hst2 : st' = st₂ := congrArg Prod.fst hpure
    obtain ⟨e, t, haddok, hsize, hsorted, hmem, hgid⟩ :=
      add_to_population_ok st.population (st.cur_gram_id + 1) st.minimum_score pm.1 ms
        (st.cur_gram_id + 1) hinv.ne hinv.sorted
        (fun e he => Nat.lt_succ_of_le (hinv.gidLe e he)) hcmp
    rw [haddok] at hadd
    have hst' := Except.ok.inj hadd
    rw [← hst2, ← hst']
    refine ⟨⟨by simp, hsize, hsorted, rfl, hgid⟩, rfl, ?_⟩
    intro x hx
    rcases hmem x hx with h1 | h1
    · exact Or.inl h1
    · right
      rw [h1]
      exact hcmp
  · rw [if_neg hcmp] at h
    rw [pure_eq_ok, Prod.mk.injEq] at h
    rw [← h.1]
    refine ⟨⟨hinv.ne, hinv.size, hinv.sorted, hinv.minEq, ?_⟩, rfl, ?_⟩
    · intro e he
      exact Nat.le_succ_of_le (hinv.gidLe e he)
    · intro e he
      exact Or.inl he

lemma generation_inv (E : Engine) (scorer : Scorer) (st st₃ : SState) (r r₃ : R)
    (hinv : PopInv st) (h : generation E scorer st r = .ok (st₃, r₃)) :
    PopInv st₃ ∧ st₃.cur_gram_id = st.cur_gram_id + 1 ∧
      ∀ e ∈ st₃.population, e ∈ st.population ∨ st.minimum_score < e.2.2 := by
  simp only [generation, choose_parent, bind_eq_ok] at h
  obtain ⟨pp, _hpp, h⟩ := h
  exact fuzz_one_step E scorer pp.1.1 st st₃ pp.2 r₃ hinv h

lemma runGens_inv (E : Engine) (scorer : Scorer) : ∀ (n : Nat) (st : SState) (r : R)
    (st₂ : SState) (r₂ : R), PopInv st → runGens E scorer n st r = .ok (st₂, r₂) →
    PopInv st₂ := by
  intro n
  induction n with
  | zero =>
    intro st r st₂ r₂ hinv h
    simp only [runGens] at h
    have := Except.ok.inj h
    rw [Prod.mk.injEq] at this
    rw [← this.1]
    exact hinv
  | succ n ih =>
    intro st r st₂ r₂ hinv h
    simp only [runGens, bind_eq_ok] at h
    obtain ⟨p, hgen, hrest⟩ := h
    obtain ⟨hinv₂, _, _⟩ := generation_inv E scorer st p.1 r p.2 hinv hgen
    exact ih p.1 p.2 st₂ r₂ hinv₂ hrest

/-- Claim C4: along every search run, after every generation the population invariant
holds — the population is non-empty with size at most 20, sorted ascending by score with
equal-score entries ordered older-first (smaller generation id first, so a new entry of
equal score is inserted after existing ones), and the tracked minimum score equals the
score of the first (lowest) entry; moreover one further generation from the reached state
preserves the invariant and admits only entries whose score strictly exceeds the minimum
score recorded immediately before admission (everything else in the new population was
already present). -/
theorem claim4_population_invariant (E : Engine)
    (guides positives negatives : List String) (i : Nat) (r : R) (st : SState) (r₂ : R)
    (h : runSearchPrefix E guides positives negatives i r = .ok (st, r₂)) :
    (st.population ≠ [] ∧ st.population.length ≤ POPULATION_SIZE ∧
      st.population.Pairwise entryLt ∧ st.minimum_score = headScore st.population) ∧
    ∀ (st₃ : SState) (r₃ : R),
      generation E ⟨positives, negatives⟩ st r₂ = .ok (st₃, r₃) →
      (st₃.population ≠ [] ∧ st₃.population.length ≤ POPULATION_SIZE ∧
        st₃.population.Pairwise entryLt ∧ st₃.minimum_score = headScore st₃.population) ∧
      ∀ e ∈ st₃.population, e ∈ st.population ∨ st.minimum_score < e.2.2 := by
  simp only [runSearchPrefix, bind_eq_ok] at h
  obtain ⟨ms, _hms, hrun⟩ := h
  have hinv₀ : PopInv ⟨[(init_grammar guides, 0, ms)], 0, ms⟩ := by
    refine ⟨by simp, by simp [POPULATION_SIZE], by simp, rfl, ?_⟩
    intro e he
    simp only [List.mem_singleton] at he
    rw [he]
  have hinv := runGens_inv E ⟨positives, negatives⟩ i _ r st r₂ hinv₀ hrun
  refine ⟨⟨hinv.ne, hinv.size, hinv.sorted, hinv.minEq⟩, ?_⟩
  intro st₃ r₃ hgen
  obtain ⟨hinv₃, _, hmem⟩ := generation_inv E ⟨positives, negatives⟩ st st₃ r₂ r₃ hinv hgen
  exact ⟨⟨hinv₃.ne, hinv₃.size, hinv₃.sorted, hinv₃.minEq⟩, hmem⟩

section ConcreteRun

attribute [local semireducible] Rat.mul Rat.inv Rat.add Rat.sub

/-- One generation's worth of random draws for the concrete search run below: pick the
only parent, cascade length 1 (index 0 of [1,2,4,8,16]), operator index 2 (Alternate),
then Alternate's four draws. -/
def genBlock : R := [0, 0, 2, 0, 0, 0, 0]

/-- n generations' worth of draw blocks. -/
def genBlocks : Nat → R
  | 0 => []
  | n + 1 => genBlock ++ genBlocks n

lemma c1_score : (Scorer.mk ["ab"] ["ba"]).score noParseEngine (init_grammar ["ab"]) =
    .ok (1/2) := rfl

lemma c1_gen_step (i : Nat) (rest : R) :
    generation noParseEngine ⟨["ab"], ["ba"]⟩
      ⟨[(init_grammar ["ab"], 0, 1/2)], i, 1/2⟩ (genBlock ++ rest) =
    .ok (⟨[(init_grammar ["ab"], 0, 1/2)], i + 1, 1/2⟩, rest) := rfl

lemma c1_run (n : Nat) : ∀ i : Nat,
    runGens noParseEngine ⟨["ab"], ["ba"]⟩ n
      ⟨[(init_grammar ["ab"], 0, 1/2)], i, 1/2⟩ (genBlocks n) =
    .ok (⟨[(init_grammar ["ab"], 0, 1/2)], i + n, 1/2⟩, []) := by
  induction n with
  | zero => intro i; rfl
  | succ n ih =>
    intro i
    show runGens noParseEngine ⟨["ab"], ["ba"]⟩ (n + 1)
      ⟨[(init_grammar ["ab"], 0, 1/2)], i, 1/2⟩ (genBlock ++ genBlocks n) = _
    simp only [runGens, bind_eq_ok]
    refine ⟨(⟨[(init_grammar ["ab"], 0, 1/2)], i + 1, 1/2⟩, genBlocks n),
      c1_gen_step i (genBlocks n), ?_⟩
    rw [ih (i + 1)]
    have harith : i + 1 + n = i + (n + 1) := by omega
    rw [harith]

/-- Claim C1: the search loop runs exactly 30 generations (the loop bound is written into
search), but search never returns the best-scoring grammar: the Python function has no
return statement despite its -> Grammar annotation, so every successful run returns None.
Concretely, on the spec's own end-to-end scenario guides=["ab"], positives=["ab"],
negatives=["ba"] a full 30-generation run completes and yields None instead of the
best-scoring grammar. -/
theorem claim1_search_returns_none :
    search noParseEngine ["ab"] ["ab"] ["ba"] (genBlocks 30) = .ok (none, []) ∧
    ∀ (E : Engine) (guides positives negatives : List String) (r : R)
      (og : Option Grammar) (r₂ : R),
      search E guides positives negatives r = .ok (og, r₂) → og = none := by
  constructor
  · show (do
      let minimum_score ← (Scorer.mk ["ab"] ["ba"]).score noParseEngine (init_grammar ["ab"])
      let p ← runGens noParseEngine ⟨["ab"], ["ba"]⟩ 30
        ⟨[(init_grammar ["ab"], 0, minimum_score)], 0, minimum_score⟩ (genBlocks 30)
      pure (none, p.2) : Except PyErr (Option Grammar × R)) = .ok (none, [])
    rw [c1_score, ok_bind]
    rw [c1_run 30 0, ok_bind]
    rfl
  · intro E guides positives negatives r og r₂ h
    simp only [search, bind_eq_ok, pure_eq_ok] at h
    obtain ⟨ms, _hms, p, _hp, hfin⟩ := h
    exact (congrArg Prod.fst hfin).symm

/-- Claim C1 witness: the universally quantified clause applied at the concrete run, its
hypothesis discharged by the concrete clause. -/
theorem claim1_witnessed :
    search noParseEngine ["ab"] ["ab"] ["ba"] (genBlocks 30) = .ok (none, []) ∧
    (none : Option Grammar) = none :=
  ⟨claim1_search_returns_none.1,
    claim1_search_returns_none.2 noParseEngine ["ab"] ["ab"] ["ba"] (genBlocks 30) none []
      claim1_search_returns_none.1⟩

/-- Claim C4 witness: the invariant theorem applied to the concrete two-generation run of
the same scenario. -/
theorem claim4_witnessed :
    ((⟨[(init_grammar ["ab"], 0, 1/2)], 2, 1/2⟩ : SState).population ≠ [] ∧
      (⟨[(init_grammar ["ab"], 0, 1/2)], 2, 1/2⟩ : SState).population.length ≤
        POPULATION_SIZE ∧
      (⟨[(init_grammar ["ab"], 0, 1/2)], 2, 1/2⟩ : SState).population.Pairwise entryLt ∧
      (⟨[(init_grammar ["ab"], 0, 1/2)], 2, 1/2⟩ : SState).minimum_score =
        headScore (⟨[(init_grammar ["ab"], 0, 1/2)], 2, 1/2⟩ : SState).population) ∧
    ∀ (st₃ : SState) (r₃ : R),
      generation noParseEngine ⟨["ab"], ["ba"]⟩
        (⟨[(init_grammar ["ab"], 0, 1/2)], 2, 1/2⟩ : SState) [] = .ok (st₃, r₃) →
      (st₃.population ≠ [] ∧ st₃.population.length ≤ POPULATION_SIZE ∧
        st₃.population.Pairwise entryLt ∧ st₃.minimum_score = headScore st₃.population) ∧
      ∀ e ∈ st₃.population,
        e ∈ (⟨[(init_grammar ["ab"], 0, 1/2)], 2, 1/2⟩ : SState).population ∨
          (⟨[(init_grammar ["ab"], 0, 1/2)], 2, 1/2⟩ : SState).minimum_score < e.2.2 :=
  claim4_population_invariant noParseEngine ["ab"] ["ab"] ["ba"] 2 (genBlocks 2)
    ⟨[(init_grammar ["ab"], 0, 1/2)], 2, 1/2⟩ [] (by
      show (do
        let minimum_score ← (Scorer.mk ["ab"] ["ba"]).score noParseEngine
          (init_grammar ["ab"])
        runGens noParseEngine ⟨["ab"], ["ba"]⟩ 2
          ⟨[(init_grammar ["ab"], 0, minimum_score)], 0, minimum_score⟩ (genBlocks 2) :
          Except PyErr (SState × R)) = .ok (⟨[(init_grammar ["ab"], 0, 1/2)], 2, 1/2⟩, [])
      rw [c1_score, ok_bind]
      exact c1_run 2 0)

end ConcreteRun

end Branta
